import Mathlib

/-
Verification development for the netmap topology-inference core.

The Rust source is shallowly embedded:
* `std::time::Instant` is modelled as `Nat` (only ordering and comparison
  matter to the code under study); functions that call `Instant::now()`
  internally take the current time as an explicit parameter.
* `std::collections::HashSet<ExpireItem<T>>` (whose `Eq`/`Hash`/`Borrow`
  instances all project to the `item` field, so the set is keyed by the
  item alone) is modelled as an association list `List (T × Nat)` pairing
  each item with its expiry.  `std::collections::HashMap<K, V>` is modelled
  as an association list `List (K × V)` with insert-overwrite semantics.
  Iteration order of a hash container is unspecified in Rust; the model
  fixes it to list order.
* Mutation through `&mut` references becomes explicit state passing.
* `Result<T, Error>` becomes `Except Error T`; a reachable `unwrap`
  failure (panic) is modelled by `Option`, with `none` for the panic.
-/

set_option autoImplicit false

namespace Netmap

/-- A MAC address: an opaque 6-byte hardware identifier (`eui48::MacAddress`),
modelled as its list of octet values.  Equality is bitwise. -/
abbrev Mac := List Nat

/-- Model of `eui48::MacAddress::is_unicast`: the least-significant bit of the
first octet is clear. -/
def Mac.is_unicast (m : Mac) : Bool := m.headD 0 % 2 == 0

/-- Model of `eui48::MacAddress::is_universal`: the second-least-significant
bit of the first octet is clear. -/
def Mac.is_universal (m : Mac) : Bool := (m.headD 0 / 2) % 2 == 0

/-- `src/expiry.rs`: `ExpireSet<T>` wraps `HashSet<ExpireItem<T>>`; the inner
set is keyed by the item, each entry carrying its expiry instant. -/
structure ExpireSet (T : Type) where
  inner : List (T × Nat)
deriving DecidableEq, Repr

/-- Model of `HashSet::get` on the item-keyed inner set: the expiry stored for
`x`, if present. -/
def entGet {T : Type} [DecidableEq T] : List (T × Nat) → T → Option Nat
  | [], _ => none
  | e :: rest, x => if e.1 = x then some e.2 else entGet rest x

/-- Model of `HashSet::remove` on the item-keyed inner set: drop the entry for
`x` (entries for a key are unique in every reachable set, so dropping all
occurrences coincides with dropping the one entry). -/
def entRemove {T : Type} [DecidableEq T] : List (T × Nat) → T → List (T × Nat)
  | [], _ => []
  | e :: rest, x => if e.1 = x then entRemove rest x else e :: entRemove rest x

/-- `ExpireSet::insert` (`expiry.rs` lines 53-65): if the item is present the
stored expiry becomes the larger of old and new, otherwise the incoming
expiry is used; `HashSet::replace` then swaps in the new entry. -/
def ExpireSet.insert {T : Type} [DecidableEq T] (s : ExpireSet T) (item : T)
    (expiry : Nat) : ExpireSet T :=
  let expiry :=
    match entGet s.inner item with
    | some old => if expiry > old then expiry else old
    | none => expiry
  ⟨entRemove s.inner item ++ [(item, expiry)]⟩

/-- `ExpireSet::is_empty`. -/
def ExpireSet.is_empty {T : Type} (s : ExpireSet T) : Bool := s.inner.isEmpty

/-- `ExpireSet::contains`. -/
def ExpireSet.contains {T : Type} [DecidableEq T] (s : ExpireSet T) (item : T) : Bool :=
  (entGet s.inner item).isSome

/-- `ExpireSet::remove`. -/
def ExpireSet.remove {T : Type} [DecidableEq T] (s : ExpireSet T) (item : T) : ExpireSet T :=
  ⟨entRemove s.inner item⟩

/-- `ExpireSet::extend_from`: re-insert every entry of `other`, applying the
max-expiry merge rule of `insert`. -/
def ExpireSet.extend_from {T : Type} [DecidableEq T] (s other : ExpireSet T) : ExpireSet T :=
  other.inner.foldl (fun acc e => acc.insert e.1 e.2) s

/-- `ExpireSet::expire` (`expiry.rs` lines 85-91): rebuilds the inner set,
keeping exactly the entries accepted by the filter `ei.expiry < now`.
`Instant::now()` is the explicit `now` parameter. -/
def ExpireSet.expire {T : Type} (s : ExpireSet T) (now : Nat) : ExpireSet T :=
  ⟨s.inner.filter (fun e => decide (e.2 < now))⟩

/-- `ExpireSet::iter`: the current items, expiry metadata not exposed. -/
def ExpireSet.items {T : Type} (s : ExpireSet T) : List T := s.inner.map (·.1)

/-- The empty `ExpireSet` (`Default::default()`). -/
def ExpireSet.empty {T : Type} : ExpireSet T := ⟨[]⟩

/-- `src/multimap.rs`: `MultiMap<K, V>` holds a monotone identity counter, a
key-to-identity table and an identity-to-value table. -/
structure MultiMap (K V : Type) where
  next_index : Nat
  indexes : List (K × Nat)
  values : List (Nat × V)

/-- Model of `HashMap::get`. -/
def assocGet {K A : Type} [DecidableEq K] : List (K × A) → K → Option A
  | [], _ => none
  | p :: rest, k => if p.1 = k then some p.2 else assocGet rest k

/-- Model of `HashMap::insert`: overwrite the binding for `k` if present,
otherwise add it. -/
def assocPut {K A : Type} [DecidableEq K] : List (K × A) → K → A → List (K × A)
  | [], k, a => [(k, a)]
  | p :: rest, k, a => if p.1 = k then (k, a) :: rest else p :: assocPut rest k a

/-- `MultiMap::default`. -/
def MultiMap.empty {K V : Type} : MultiMap K V := ⟨0, [], []⟩

/-- `MultiMap::insert` (`multimap.rs` lines 21-32): mint a fresh identity,
store the value under it, and bind every supplied key to that identity. -/
def MultiMap.insert {K V : Type} [DecidableEq K] (m : MultiMap K V) (keys : List K)
    (value : V) : MultiMap K V :=
  let index := m.next_index
  { next_index := index + 1
    values := assocPut m.values index value
    indexes := keys.foldl (fun idx k => assocPut idx k index) m.indexes }

/-- `MultiMap::contains_key`. -/
def MultiMap.contains_key {K V : Type} [DecidableEq K] (m : MultiMap K V) (key : K) : Bool :=
  (assocGet m.indexes key).isSome

/-- `MultiMap::values` / `MultiMap::iter`: the stored records, one per
identity. -/
def MultiMap.records {K V : Type} (m : MultiMap K V) : List V := m.values.map (·.2)

/-- `MultiMap::get` (`multimap.rs` lines 46-48): resolve the key to an
identity, then the identity to its record. -/
def MultiMap.get {K V : Type} [DecidableEq K] (m : MultiMap K V) (key : K) : Option V :=
  (assocGet m.indexes key).bind (fun idx => assocGet m.values idx)

/-- `MultiMap::get_mut` followed by a mutation of the returned record: the
record bound to `key` (when any) is replaced by `f` of itself.  Mutation
through the `&mut V` is explicit state passing here. -/
def MultiMap.get_mut_apply {K V : Type} [DecidableEq K] (m : MultiMap K V) (key : K)
    (f : V → V) : MultiMap K V :=
  match assocGet m.indexes key with
  | none => m
  | some idx =>
    match assocGet m.values idx with
    | none => m
    | some v => { m with values := assocPut m.values idx (f v) }

/-- The trace of `visit` invocations of `MultiMap::visit_pairs`
(`multimap.rs` lines 56-68) on a value vector given in reverse: the loop
repeatedly removes the vector's last element as `left` and visits it against
every remaining element in vector order. -/
def visitPairsAux {α : Type} : List α → List (α × α)
  | [] => []
  | left :: rest => rest.reverse.map (fun right => (left, right)) ++ visitPairsAux rest

/-- `MultiMap::visit_pairs`: the callback-invocation trace, each element being
the `(left, right)` record pair of one invocation. -/
def MultiMap.visit_pairs {K V : Type} (m : MultiMap K V) : List (V × V) :=
  visitPairsAux m.records.reverse

/-! ### Basic facts about the `ExpireSet` model -/

theorem entGet_entRemove_self {T : Type} [DecidableEq T] (l : List (T × Nat)) (x : T) :
    entGet (entRemove l x) x = none := by
  induction l with
  | nil => rfl
  | cons e rest ih =>
    by_cases h : e.1 = x
    · simpa [entRemove, h] using ih
    · simp [entRemove, entGet, h, ih]

theorem entGet_append_of_none {T : Type} [DecidableEq T] (l₁ l₂ : List (T × Nat)) (x : T)
    (h : entGet l₁ x = none) : entGet (l₁ ++ l₂) x = entGet l₂ x := by
  induction l₁ with
  | nil => rfl
  | cons e rest ih =>
    by_cases he : e.1 = x
    · simp [entGet, he] at h
    · simp only [entGet, he, if_false, List.cons_append] at h ⊢
      exact ih h

theorem entGet_insert_self {T : Type} [DecidableEq T] (s : ExpireSet T) (x : T) (e : Nat) :
    entGet (s.insert x e).inner x =
      some (match entGet s.inner x with
            | some old => if e > old then e else old
            | none => e) := by
  unfold ExpireSet.insert
  rw [entGet_append_of_none _ _ _ (entGet_entRemove_self s.inner x)]
  simp [entGet]

theorem countP_entRemove_self {T : Type} [DecidableEq T] (l : List (T × Nat)) (x : T) :
    (entRemove l x).countP (fun p => decide (p.1 = x)) = 0 := by
  induction l with
  | nil => rfl
  | cons e rest ih =>
    by_cases h : e.1 = x
    · simpa [entRemove, h] using ih
    · simp [entRemove, h, List.countP_cons, ih]

theorem countP_insert_self {T : Type} [DecidableEq T] (s : ExpireSet T) (x : T) (e : Nat) :
    (s.insert x e).inner.countP (fun p => decide (p.1 = x)) = 1 := by
  unfold ExpireSet.insert
  simp [List.countP_append, countP_entRemove_self, List.countP_cons]

theorem entGet_foldl_insert {T : Type} [DecidableEq T] (x : T) (es : List Nat) :
    ∀ (t : ExpireSet T) (m : Nat), entGet t.inner x = some m →
      entGet ((es.foldl (fun acc e => acc.insert x e) t)).inner x =
        some (es.foldl Nat.max m) := by
  induction es with
  | nil => intro t m h; simpa using h
  | cons e rest ih =>
    intro t m h
    simp only [List.foldl_cons]
    apply ih
    rw [entGet_insert_self, h]
    have : (if e > m then e else m) = Nat.max m e := by
      rcases Nat.lt_or_ge m e with hlt | hge
      · simp [hlt, Nat.max_eq_right (Nat.le_of_lt hlt)]
      · have : ¬ (e > m) := Nat.not_lt.mpr hge
        simp [this, Nat.max_eq_left hge]
    simp [this]

theorem countP_foldl_insert {T : Type} [DecidableEq T] (x : T) (es : List Nat)
    (hne : es ≠ []) (t : ExpireSet T) :
    ((es.foldl (fun acc e => acc.insert x e) t)).inner.countP
      (fun p => decide (p.1 = x)) = 1 := by
  induction es generalizing t with
  | nil => exact absurd rfl hne
  | cons e rest ih =>
    rcases rest with _ | ⟨e₂, rest₂⟩
    · simpa using countP_insert_self t x e
    · simpa using ih (by simp) (t.insert x e)

/-- C2: for every item `x` and nonempty sequence of expiries `e1, e2, …`
inserted for `x` into an `ExpireSet` not yet containing `x`, afterwards the
set holds exactly one entry for `x`, its stored expiry is `max(e1, e2, …)`,
and any single insert on a set already holding `x` at expiry `e0` stores
`max(e0, e)`, so an earlier (stale) expiry never decreases the stored one. -/
theorem expireSet_insert_max_expiry (s : ExpireSet Mac) (x : Mac) (es : List Nat)
    (habs : entGet s.inner x = none) (hne : es ≠ []) :
    ((es.foldl (fun acc e => acc.insert x e) s)).inner.countP
        (fun p => decide (p.1 = x)) = 1 ∧
    entGet ((es.foldl (fun acc e => acc.insert x e) s)).inner x =
        some (es.foldl Nat.max 0) ∧
    (∀ (t : ExpireSet Mac) (e e₀ : Nat), entGet t.inner x = some e₀ →
        entGet (t.insert x e).inner x = some (Nat.max e₀ e)) := by
  refine ⟨countP_foldl_insert x es hne s, ?_, ?_⟩
  · rcases es with _ | ⟨e₁, rest⟩
    · exact absurd rfl hne
    · simp only [List.foldl_cons]
      have h₁ : entGet (s.insert x e₁).inner x = some e₁ := by
        rw [entGet_insert_self, habs]
      have := entGet_foldl_insert x rest (s.insert x e₁) e₁ h₁
      simpa [Nat.zero_max] using this
  · intro t e e₀ h
    rw [entGet_insert_self, h]
    rcases Nat.lt_or_ge e₀ e with hlt | hge
    · simp [hlt, Nat.max_eq_right (Nat.le_of_lt hlt)]
    · have hng : ¬ (e > e₀) := Nat.not_lt.mpr hge
      simp [hng, Nat.max_eq_left hge]

/-- Witness for C2 at a concrete input: inserting expiries `7, 3, 9` for one
MAC into the empty set leaves one entry for it with expiry `9`. -/
theorem expireSet_insert_max_expiry_witness :
    ((([7, 3, 9] : List Nat).foldl
        (fun acc e => acc.insert ([0, 0, 0, 0, 0, 1] : Mac) e)
        ExpireSet.empty)).inner.countP
        (fun p => decide (p.1 = ([0, 0, 0, 0, 0, 1] : Mac))) = 1 ∧
    entGet ((([7, 3, 9] : List Nat).foldl
        (fun acc e => acc.insert ([0, 0, 0, 0, 0, 1] : Mac) e)
        ExpireSet.empty)).inner ([0, 0, 0, 0, 0, 1] : Mac) =
      some (([7, 3, 9] : List Nat).foldl Nat.max 0) :=
  ⟨(expireSet_insert_max_expiry ExpireSet.empty [0, 0, 0, 0, 0, 1] [7, 3, 9]
      (by decide) (by decide)).1,
   (expireSet_insert_max_expiry ExpireSet.empty [0, 0, 0, 0, 0, 1] [7, 3, 9]
      (by decide) (by decide)).2.1⟩

/-! ### Facts about `MultiMap.visit_pairs` -/

theorem visitPairsAux_length {α : Type} (l : List α) :
    (visitPairsAux l).length = Nat.choose l.length 2 := by
  induction l with
  | nil => rfl
  | cons x rest ih =>
    simp [visitPairsAux, ih, Nat.choose_succ_succ, Nat.choose_one_right, Nat.add_comm]

theorem mem_visitPairsAux {α : Type} {l : List α} {p : α × α}
    (h : p ∈ visitPairsAux l) : p.1 ∈ l ∧ p.2 ∈ l := by
  induction l with
  | nil => simp [visitPairsAux] at h
  | cons x rest ih =>
    simp only [visitPairsAux, List.mem_append, List.mem_map, List.mem_reverse] at h
    rcases h with ⟨r, hr, hp⟩ | h
    · subst hp
      exact ⟨List.mem_cons_self x rest, List.mem_cons_of_mem x hr⟩
    · exact ⟨List.mem_cons_of_mem x (ih h).1, List.mem_cons_of_mem x (ih h).2⟩

theorem countP_visitPairsAux_fst {α : Type} [DecidableEq α] {l : List α} {a b : α}
    (ha : a ∉ l) :
    (visitPairsAux l).countP (fun y => decide (y = (a, b))) = 0 := by
  rw [List.countP_eq_zero]
  intro y hy
  simp only [decide_eq_true_eq]
  intro hEq
  subst hEq
  exact ha (mem_visitPairsAux hy).1

theorem countP_visitPairsAux_snd {α : Type} [DecidableEq α] {l : List α} {a b : α}
    (hb : b ∉ l) :
    (visitPairsAux l).countP (fun y => decide (y = (a, b))) = 0 := by
  rw [List.countP_eq_zero]
  intro y hy
  simp only [decide_eq_true_eq]
  intro hEq
  subst hEq
  exact hb (mem_visitPairsAux hy).2

theorem countP_eq_one_of_nodup_mem {α : Type} [DecidableEq α] {l : List α} {b : α}
    (hn : l.Nodup) (hb : b ∈ l) :
    l.countP (fun y => decide (y = b)) = 0 + 1 := by
  induction l with
  | nil => simp at hb
  | cons x rest ih =>
    rcases List.nodup_cons.mp hn with ⟨hx, hrest⟩
    rcases List.mem_cons.mp hb with hbx | hbr
    · subst hbx
      have : rest.countP (fun y => decide (y = b)) = 0 := by
        rw [List.countP_eq_zero]
        intro y hy
        simp only [decide_eq_true_eq]
        intro hEq; subst hEq; exact hx hy
      simp [List.countP_cons, this]
    · have hbx : ¬ (x = b) := fun hEq => hx (hEq ▸ hbr)
      simp [List.countP_cons, hbx, ih hrest hbr]

theorem visitPairsAux_count_pair {α : Type} [DecidableEq α] {l : List α}
    (hn : l.Nodup) {a b : α} (ha : a ∈ l) (hb : b ∈ l) (hab : a ≠ b) :
    (visitPairsAux l).countP (fun y => decide (y = (a, b))) +
      (visitPairsAux l).countP (fun y => decide (y = (b, a))) = 1 := by
  induction l with
  | nil => simp at ha
  | cons x rest ih =>
    rcases List.nodup_cons.mp hn with ⟨hx, hrest⟩
    have hmapEq : ∀ c d : α,
        ((rest.reverse.map (fun right => (x, right))).countP
          (fun y => decide (y = (c, d)))) =
        rest.countP (fun r => decide (x = c ∧ r = d)) := by
      intro c d
      rw [List.countP_map, List.countP_reverse]
      apply List.countP_congr
      intro r _
      simp [Function.comp, Prod.ext_iff]
    simp only [visitPairsAux, List.countP_append, hmapEq]
    by_cases hax : a = x
    · subst hax
      have hbr : b ∈ rest := by
        rcases List.mem_cons.mp hb with h | h
        · exact absurd h.symm hab
        · exact h
      have h1 : rest.countP (fun r => decide (a = a ∧ r = b)) =
          rest.countP (fun r => decide (r = b)) := by
        apply List.countP_congr
        intro r _
        simp
      have h2 : rest.countP (fun r => decide (a = b ∧ r = a)) = 0 := by
        rw [List.countP_eq_zero]
        intro r _
        simp only [decide_eq_true_eq]
        rintro ⟨hEq, -⟩
        exact hab hEq
      have h3 : (visitPairsAux rest).countP (fun y => decide (y = (a, b))) = 0 :=
        countP_visitPairsAux_fst hx
      have h4 : (visitPairsAux rest).countP (fun y => decide (y = (b, a))) = 0 :=
        countP_visitPairsAux_snd hx
      rw [h1, h2, h3, h4, countP_eq_one_of_nodup_mem hrest hbr]
    · by_cases hbx : b = x
      · subst hbx
        have har : a ∈ rest := by
          rcases List.mem_cons.mp ha with h | h
          · exact absurd h hax
          · exact h
        have h1 : rest.countP (fun r => decide (b = a ∧ r = b)) = 0 := by
          rw [List.countP_eq_zero]
          intro r _
          simp only [decide_eq_true_eq]
          rintro ⟨hEq, -⟩
          exact hab hEq.symm
        have h2 : rest.countP (fun r => decide (b = b ∧ r = a)) =
            rest.countP (fun r => decide (r = a)) := by
          apply List.countP_congr
          intro r _
          simp
        have h3 : (visitPairsAux rest).countP (fun y => decide (y = (a, b))) = 0 :=
          countP_visitPairsAux_snd hx
        have h4 : (visitPairsAux rest).countP (fun y => decide (y = (b, a))) = 0 :=
          countP_visitPairsAux_fst hx
        rw [h1, h2, h3, h4, countP_eq_one_of_nodup_mem hrest har]
      · have har : a ∈ rest := by
          rcases List.mem_cons.mp ha with h | h
          · exact absurd h hax
          · exact h
        have hbr : b ∈ rest := by
          rcases List.mem_cons.mp hb with h | h
          · exact absurd h hbx
          · exact h
        have h1 : rest.countP (fun r => decide (x = a ∧ r = b)) = 0 := by
          rw [List.countP_eq_zero]
          intro r _
          simp only [decide_eq_true_eq]
          rintro ⟨hEq, -⟩
          exact hax hEq.symm
        have h2 : rest.countP (fun r => decide (x = b ∧ r = a)) = 0 := by
          rw [List.countP_eq_zero]
          intro r _
          simp only [decide_eq_true_eq]
          rintro ⟨hEq, -⟩
          exact hbx hEq.symm
        have := ih hrest har hbr
        omega

theorem visitPairsAux_no_self {α : Type} [DecidableEq α] {l : List α}
    (hn : l.Nodup) (a : α) : (a, a) ∉ visitPairsAux l := by
  induction l with
  | nil => simp [visitPairsAux]
  | cons x rest ih =>
    rcases List.nodup_cons.mp hn with ⟨hx, hrest⟩
    simp only [visitPairsAux, List.mem_append, List.mem_map, List.mem_reverse]
    rintro (⟨r, hr, hp⟩ | h)
    · rcases Prod.mk.injEq .. ▸ hp with ⟨h1, h2⟩
      exact hx (h1 ▸ h2 ▸ hr)
    · exact ih hrest h

/-- C5: for a `MultiMap` holding `N` distinct records, `visit_pairs` invokes
its callback exactly `N·(N-1)/2` times, exactly once per unordered pair of
distinct records, and never with the same record on both sides. -/
theorem multimap_visit_pairs_pairwise {K V : Type} [DecidableEq V]
    (m : MultiMap K V) (hn : m.records.Nodup) :
    m.visit_pairs.length = m.records.length * (m.records.length - 1) / 2 ∧
    (∀ a b : V, a ∈ m.records → b ∈ m.records → a ≠ b →
      m.visit_pairs.countP (fun y => decide (y = (a, b))) +
        m.visit_pairs.countP (fun y => decide (y = (b, a))) = 1) ∧
    (∀ a : V, (a, a) ∉ m.visit_pairs) := by
  have hrev : m.records.reverse.Nodup := List.nodup_reverse.mpr hn
  refine ⟨?_, ?_, ?_⟩
  · rw [MultiMap.visit_pairs, visitPairsAux_length, List.length_reverse,
      Nat.choose_two_right]
  · intro a b ha hb hab
    exact visitPairsAux_count_pair hrev (List.mem_reverse.mpr ha)
      (List.mem_reverse.mpr hb) hab
  · intro a
    exact visitPairsAux_no_self hrev a

/-- Witness for C5 at a concrete input: a `MultiMap` holding the three
records `1, 2, 3` produces three callback invocations, and the unordered
pair `{1, 2}` is visited exactly once. -/
theorem multimap_visit_pairs_pairwise_witness :
    (((MultiMap.empty.insert [10] 1).insert [20] 2).insert [30] 3 :
        MultiMap Nat Nat).visit_pairs.length =
      (((MultiMap.empty.insert [10] 1).insert [20] 2).insert [30] 3 :
        MultiMap Nat Nat).records.length *
      ((((MultiMap.empty.insert [10] 1).insert [20] 2).insert [30] 3 :
        MultiMap Nat Nat).records.length - 1) / 2 ∧
    (((MultiMap.empty.insert [10] 1).insert [20] 2).insert [30] 3 :
        MultiMap Nat Nat).visit_pairs.countP (fun y => decide (y = (1, 2))) +
      (((MultiMap.empty.insert [10] 1).insert [20] 2).insert [30] 3 :
        MultiMap Nat Nat).visit_pairs.countP (fun y => decide (y = (2, 1))) = 1 :=
  ⟨(multimap_visit_pairs_pairwise
      (((MultiMap.empty.insert [10] 1).insert [20] 2).insert [30] 3)
      (by decide)).1,
   (multimap_visit_pairs_pairwise
      (((MultiMap.empty.insert [10] 1).insert [20] 2).insert [30] 3)
      (by decide)).2.1 1 2 (by decide) (by decide) (by decide)⟩

/-! ### Facts about `MultiMap` key aliasing -/

theorem assocGet_assocPut_self {K A : Type} [DecidableEq K]
    (l : List (K × A)) (k : K) (a : A) : assocGet (assocPut l k a) k = some a := by
  induction l with
  | nil => simp [assocPut, assocGet]
  | cons p rest ih =>
    by_cases h : p.1 = k
    · simp [assocPut, assocGet, h]
    · simp [assocPut, assocGet, h, ih]

theorem assocGet_assocPut_other {K A : Type} [DecidableEq K]
    (l : List (K × A)) (k k' : K) (a : A) (h : k ≠ k') :
    assocGet (assocPut l k a) k' = assocGet l k' := by
  induction l with
  | nil => simp [assocPut, assocGet, h]
  | cons p rest ih =>
    by_cases hp : p.1 = k
    · simp [assocPut, assocGet, hp, h, ih]
    · by_cases hp' : p.1 = k'
      · simp [assocPut, assocGet, hp, hp', Ne.symm h]
      · simp [assocPut, assocGet, hp, hp', ih]

theorem assocGet_foldl_assocPut {K : Type} [DecidableEq K] (keys : List K) (i : Nat) :
    ∀ (acc : List (K × Nat)) (k : K),
      assocGet (keys.foldl (fun idx k' => assocPut idx k' i) acc) k =
        if k ∈ keys then some i else assocGet acc k := by
  induction keys with
  | nil => intro acc k; simp
  | cons k₀ ks ih =>
    intro acc k
    simp only [List.foldl_cons]
    rw [ih]
    by_cases hks : k ∈ ks
    · simp [hks]
    · by_cases hk0 : k = k₀
      · subst hk0
        simp [hks, assocGet_assocPut_self]
      · have : k₀ ≠ k := fun hEq => hk0 hEq.symm
        simp [hks, hk0, assocGet_assocPut_other _ _ _ _ this]

/-- C6: inserting one record under a set of keys binds every one of those
keys to the same freshly minted identity, so `get` through any of them
returns the record; and a mutation through `get_mut` on one key is
observable through `get` on any other key of the same record. -/
theorem multimap_multi_key_aliasing {K V : Type} [DecidableEq K]
    (m : MultiMap K V) (keys : List K) (v : V) (f : V → V) (k₁ k₂ : K)
    (h₁ : k₁ ∈ keys) (h₂ : k₂ ∈ keys) :
    assocGet (m.insert keys v).indexes k₁ = some m.next_index ∧
    assocGet (m.insert keys v).indexes k₂ = some m.next_index ∧
    (m.insert keys v).get k₁ = some v ∧
    (m.insert keys v).get k₂ = some v ∧
    ((m.insert keys v).get_mut_apply k₁ f).get k₂ = some (f v) := by
  have hidx : ∀ k, k ∈ keys → assocGet (m.insert keys v).indexes k = some m.next_index := by
    intro k hk
    show assocGet (keys.foldl (fun idx k' => assocPut idx k' m.next_index) m.indexes) k = _
    rw [assocGet_foldl_assocPut]
    simp [hk]
  have hval : assocGet (m.insert keys v).values m.next_index = some v :=
    assocGet_assocPut_self m.values m.next_index v
  have hget : ∀ k, k ∈ keys → (m.insert keys v).get k = some v := by
    intro k hk
    rw [MultiMap.get, hidx k hk]
    simpa using hval
  refine ⟨hidx k₁ h₁, hidx k₂ h₂, hget k₁ h₁, hget k₂ h₂, ?_⟩
  rw [MultiMap.get_mut_apply, hidx k₁ h₁]
  simp only [hval]
  rw [MultiMap.get]
  show (assocGet (m.insert keys v).indexes k₂).bind _ = _
  rw [hidx k₂ h₂]
  simpa using assocGet_assocPut_self (m.insert keys v).values m.next_index (f v)

/-- Witness for C6 at a concrete input: one record inserted under keys
`{1, 2}` is reachable through both keys, and adding one through key `1` is
seen through key `2`. -/
theorem multimap_multi_key_aliasing_witness :
    ((MultiMap.empty.insert [1, 2] 5 : MultiMap Nat Nat)).get 1 = some 5 ∧
    ((MultiMap.empty.insert [1, 2] 5 : MultiMap Nat Nat)).get 2 = some 5 ∧
    (((MultiMap.empty.insert [1, 2] 5 : MultiMap Nat Nat)).get_mut_apply 1
        (fun x => x + 1)).get 2 = some 6 :=
  ⟨(multimap_multi_key_aliasing MultiMap.empty [1, 2] 5 (fun x => x + 1) 1 2
      (by decide) (by decide)).2.2.1,
   (multimap_multi_key_aliasing MultiMap.empty [1, 2] 5 (fun x => x + 1) 1 2
      (by decide) (by decide)).2.2.2.1,
   (multimap_multi_key_aliasing MultiMap.empty [1, 2] 5 (fun x => x + 1) 1 2
      (by decide) (by decide)).2.2.2.2⟩

/-! ### The device/port model and pass 1 of `Network::map` (pruning) -/

/-- `src/lib.rs`: `Port` — display name and the Expiring Set of MAC
addresses visible from the port. -/
structure Port where
  name : String
  visible : ExpireSet Mac
deriving DecidableEq, Repr

/-- `src/lib.rs`: `Device` — identity, optional display name, owned MAC
addresses, and the port table (`HashMap<String, Port>`, modelled as an
association list). -/
structure Device where
  id : String
  name : Option String
  mac : List Mac
  ports : List (String × Port)
deriving DecidableEq, Repr

/-- `Port::can_see` (`lib.rs` lines 72-79): whether any of the given MAC
addresses is visible on the port. -/
def Port.can_see (p : Port) (macs : List Mac) : Bool :=
  macs.any (fun m => p.visible.contains m)

/-- Innermost loop of pass 1 (`lib.rs` lines 173-175): remove each MAC of
`ms` from the working port's visible set in turn. -/
def removeVisible (p : Port) : List Mac → Port
  | [] => p
  | m :: ms => removeVisible { p with visible := p.visible.remove m } ms

/-- Middle loop of pass 1 (`lib.rs` lines 171-177): for every port of the
owning device that does not see any of the current device's MACs (`dmac`),
strip everything that port sees from the working port. -/
def pruneOtherPorts (dmac : List Mac) (q : Port) : List (String × Port) → Port
  | [] => q
  | op :: rest =>
    pruneOtherPorts dmac
      (if op.2.can_see dmac then q else removeVisible q op.2.visible.items) rest

/-- Outer loop of pass 1 (`lib.rs` lines 169-179): iterate over the snapshot
(`visible.clone()`) of the port's visible MACs; look each one's owning
device up in the ORIGINAL index `orig` and apply the middle loop. -/
def pruneMacs (orig : MultiMap Mac Device) (dmac : List Mac) (q : Port) :
    List Mac → Port
  | [] => q
  | mac :: rest =>
    pruneMacs orig dmac
      (match orig.get mac with
       | some other => pruneOtherPorts dmac q other.ports
       | none => q) rest

/-- Pass 1 for one working-copy port: the snapshot iterated over is the
port's own (pre-removal) visible list. -/
def prunePort (orig : MultiMap Mac Device) (device : Device) (port : Port) : Port :=
  pruneMacs orig device.mac port port.visible.items

/-- Pass 1 of `Network::map` (`lib.rs` lines 164-181): a working copy of the
device table in which every port is pruned, with all cross-device lookups
against the original `orig`.  Each loop iteration mutates only the port it
is visiting, so the working copy is exactly this per-port map. -/
def pruneDevices (orig : MultiMap Mac Device) : MultiMap Mac Device :=
  { orig with
    values := orig.values.map (fun iv =>
      (iv.1, { iv.2 with ports := iv.2.ports.map (fun pp =>
        (pp.1, prunePort orig iv.2 pp.2)) })) }

theorem entGet_entRemove_other {T : Type} [DecidableEq T] (l : List (T × Nat))
    {x m : T} (h : x ≠ m) : entGet (entRemove l m) x = entGet l x := by
  induction l with
  | nil => rfl
  | cons e rest ih =>
    by_cases he : e.1 = m
    · have : ¬ (e.1 = x) := fun hEq => h (hEq ▸ he)
      simp [entRemove, entGet, he, this, ih, Ne.symm h]
    · by_cases hex : e.1 = x
      · simp [entRemove, entGet, he, hex, h]
      · simp [entRemove, entGet, he, hex, ih, h]

theorem contains_remove {T : Type} [DecidableEq T] (s : ExpireSet T) (m x : T) :
    (s.remove m).contains x = true ↔ s.contains x = true ∧ x ≠ m := by
  by_cases h : x = m
  · subst h
    simp [ExpireSet.remove, ExpireSet.contains, entGet_entRemove_self]
  · simp [ExpireSet.remove, ExpireSet.contains, entGet_entRemove_other _ h, h]

theorem entGet_isSome_iff_mem {T : Type} [DecidableEq T] (l : List (T × Nat)) (x : T) :
    (entGet l x).isSome = true ↔ x ∈ l.map (·.1) := by
  induction l with
  | nil => simp [entGet]
  | cons e rest ih =>
    by_cases he : e.1 = x
    · simp [entGet, he]
    · have : ¬ (x = e.1) := fun hEq => he hEq.symm
      simp [entGet, he, this, ih]

theorem contains_iff_mem_items {T : Type} [DecidableEq T] (s : ExpireSet T) (x : T) :
    s.contains x = true ↔ x ∈ s.items :=
  entGet_isSome_iff_mem s.inner x

theorem removeVisible_contains (ms : List Mac) :
    ∀ (p : Port) (x : Mac),
      (removeVisible p ms).visible.contains x = true ↔
        p.visible.contains x = true ∧ x ∉ ms := by
  induction ms with
  | nil => intro p x; simp [removeVisible]
  | cons m ms' ih =>
    intro p x
    rw [removeVisible, ih]
    show (p.visible.remove m).contains x = true ∧ _ ↔ _
    rw [contains_remove]
    simp only [List.mem_cons]
    constructor
    · rintro ⟨⟨hc, hne⟩, hnm⟩
      exact ⟨hc, fun hmem => hmem.elim hne hnm⟩
    · rintro ⟨hc, hnmem⟩
      exact ⟨⟨hc, fun hEq => hnmem (Or.inl hEq)⟩, fun hmem => hnmem (Or.inr hmem)⟩

theorem pruneOtherPorts_contains (dmac : List Mac) (ops : List (String × Port)) :
    ∀ (q : Port) (x : Mac),
      (pruneOtherPorts dmac q ops).visible.contains x = true ↔
        q.visible.contains x = true ∧
          ∀ op ∈ ops, op.2.can_see dmac = false →
            op.2.visible.contains x = false := by
  induction ops with
  | nil => intro q x; simp [pruneOtherPorts]
  | cons op rest ih =>
    intro q x
    rw [pruneOtherPorts, ih]
    by_cases hsee : op.2.can_see dmac = true
    · simp only [if_pos hsee, List.mem_cons]
      constructor
      · rintro ⟨hc, hrest⟩
        refine ⟨hc, ?_⟩
        rintro op' (rfl | hmem)
        · intro hfalse
          rw [hsee] at hfalse
          cases hfalse
        · exact hrest op' hmem
      · rintro ⟨hc, hall⟩
        exact ⟨hc, fun op' hmem => hall op' (Or.inr hmem)⟩
    · have hsee' : op.2.can_see dmac = false := by
        cases h : op.2.can_see dmac
        · rfl
        · exact absurd h hsee
      rw [if_neg hsee, removeVisible_contains]
      simp only [List.mem_cons]
      constructor
      · rintro ⟨⟨hc, hnm⟩, hrest⟩
        refine ⟨hc, ?_⟩
        rintro op' (rfl | hmem)
        · intro _
          cases h : op'.2.visible.contains x
          · rfl
          · exact absurd ((contains_iff_mem_items _ _).mp h) hnm
        · exact hrest op' hmem
      · rintro ⟨hc, hall⟩
        refine ⟨⟨hc, ?_⟩, fun op' hmem => hall op' (Or.inr hmem)⟩
        intro hmem
        have := hall op (Or.inl rfl) hsee'
        rw [(contains_iff_mem_items _ _).mpr hmem] at this
        cases this

theorem pruneMacs_contains (orig : MultiMap Mac Device) (dmac : List Mac)
    (macs : List Mac) :
    ∀ (q : Port) (x : Mac),
      (pruneMacs orig dmac q macs).visible.contains x = true ↔
        q.visible.contains x = true ∧
          ∀ mac ∈ macs, ∀ other : Device, orig.get mac = some other →
            ∀ op ∈ other.ports, op.2.can_see dmac = false →
              op.2.visible.contains x = false := by
  induction macs with
  | nil => intro q x; simp [pruneMacs]
  | cons mac rest ih =>
    intro q x
    rw [pruneMacs, ih]
    cases hget : orig.get mac with
    | none =>
      simp only [List.mem_cons]
      constructor
      · rintro ⟨hc, hrest⟩
        refine ⟨hc, ?_⟩
        rintro mac' (rfl | hmem)
        · intro other hother
          rw [hget] at hother
          cases hother
        · exact hrest mac' hmem
      · rintro ⟨hc, hall⟩
        exact ⟨hc, fun mac' hmem => hall mac' (Or.inr hmem)⟩
    | some other =>
      rw [pruneOtherPorts_contains]
      simp only [List.mem_cons]
      constructor
      · rintro ⟨⟨hc, hops⟩, hrest⟩
        refine ⟨hc, ?_⟩
        rintro mac' (rfl | hmem)
        · intro other' hother'
          rw [hget] at hother'
          cases hother'
          exact hops
        · exact hrest mac' hmem
      · rintro ⟨hc, hall⟩
        exact ⟨⟨hc, hall mac (Or.inl rfl) other hget⟩,
          fun mac' hmem => hall mac' (Or.inr hmem)⟩

/-- The spec's A–B–C chain: device A's port sees both B's and C's MAC
(C reachable only through B). -/
def chainAmac : Mac := [0, 0, 0, 0, 0, 1]

/-- B's MAC in the A–B–C chain. -/
def chainBmac : Mac := [0, 0, 0, 0, 0, 2]

/-- C's MAC in the A–B–C chain. -/
def chainCmac : Mac := [0, 0, 0, 0, 0, 3]

/-- Device A of the chain: one port seeing B's and C's MACs. -/
def chainA : Device :=
  ⟨"A", none, [chainAmac], [("p1", ⟨"p1", ⟨[(chainBmac, 10), (chainCmac, 10)]⟩⟩)]⟩

/-- Device B of the chain: its facing port sees C's MAC but does not report
seeing A. -/
def chainB : Device :=
  ⟨"B", none, [chainBmac], [("b2", ⟨"b2", ⟨[(chainCmac, 10)]⟩⟩)]⟩

/-- Device C of the chain. -/
def chainC : Device := ⟨"C", none, [chainCmac], []⟩

/-- The device index of the A–B–C chain. -/
def chainMap : MultiMap Mac Device :=
  ((MultiMap.empty.insert [chainAmac] chainA).insert [chainBmac] chainB).insert
    [chainCmac] chainC

/-- C3: pruning-pass correctness.  A MAC `x` survives the pruning of a port
exactly when it was visible before and no MAC of the port's original
(pre-mutation) visible snapshot resolves, through the original index, to an
owning device one of whose ports fails to see the pruned device back yet
sees `x` — all lookups against the original state, removals only in the
working copy.  In the spec's A–B–C chain, pruning removes C's MAC from A's
port and leaves B's. -/
theorem map_prune_transitive_visibility :
    (∀ (orig : MultiMap Mac Device) (d : Device) (port : Port) (x : Mac),
      (prunePort orig d port).visible.contains x = true ↔
        port.visible.contains x = true ∧
          ∀ mac ∈ port.visible.items, ∀ other : Device,
            orig.get mac = some other →
              ∀ op ∈ other.ports, op.2.can_see d.mac = false →
                op.2.visible.contains x = false) ∧
    ((pruneDevices chainMap).get chainAmac).map
        (fun d => d.ports.map (fun pp => pp.2.visible.items)) =
      some [[chainBmac]] := by
  constructor
  · intro orig d port x
    exact pruneMacs_contains orig d.mac port.visible.items port x
  · decide

/-! ### Pass 2 of `Network::map` (pairwise adjacency resolution) -/

/-- An edge endpoint of the output graph: a device's own node or one of its
port nodes (`device_nodes` / `port_nodes` in `lib.rs`). -/
inductive Endpoint where
  | device (id : String)
  | port (deviceId : String) (portId : String)
deriving DecidableEq, Repr

/-- Endpoint resolution of pass 2 (`lib.rs` lines 218-239): the first port in
iteration order whose visible set contains any MAC of the other device, or
the device node itself when no port sees the other side. -/
def resolveEndpoint (d : Device) (otherMac : List Mac) : Endpoint :=
  match d.ports.find? (fun ip => ip.2.can_see otherMac) with
  | none => Endpoint.device d.id
  | some ip => Endpoint.port d.id ip.1

/-- Pass 2 of `Network::map` (`lib.rs` lines 217-242): one edge per
`visit_pairs` callback invocation, between the two resolved endpoints. -/
def mapEdges (devices : MultiMap Mac Device) : List (Endpoint × Endpoint) :=
  devices.visit_pairs.map (fun lr =>
    (resolveEndpoint lr.1 lr.2.mac, resolveEndpoint lr.2 lr.1.mac))

theorem find?_eq_some_first {α : Type} (p : α → Bool) (l : List α) (x : α) :
    l.find? p = some x ↔
      ∃ l₁ l₂, l = l₁ ++ x :: l₂ ∧ p x = true ∧ ∀ y ∈ l₁, p y = false := by
  induction l with
  | nil =>
    simp only [List.find?_nil]
    constructor
    · intro h; cases h
    · rintro ⟨l₁, l₂, hEq, -, -⟩
      cases l₁ <;> cases hEq
  | cons a rest ih =>
    cases hpa : p a with
    | true =>
      rw [List.find?_cons_of_pos _ hpa]
      constructor
      · intro h
        cases h
        exact ⟨[], rest, rfl, hpa, by intro y hy; cases hy⟩
      · rintro ⟨l₁, l₂, hEq, hpx, hall⟩
        cases l₁ with
        | nil =>
          cases hEq
          rfl
        | cons b l₁' =>
          have hb : b = a := ((List.cons.injEq .. ▸ hEq).1 : a = b).symm
          have := hall b (List.mem_cons_self b l₁')
          rw [hb, hpa] at this
          cases this
    | false =>
      rw [List.find?_cons_of_neg _ (by simp [hpa])]
      rw [ih]
      constructor
      · rintro ⟨l₁, l₂, hEq, hpx, hall⟩
        refine ⟨a :: l₁, l₂, by rw [hEq]; rfl, hpx, ?_⟩
        intro y hy
        rcases List.mem_cons.mp hy with rfl | hy'
        · exact hpa
        · exact hall y hy'
      · rintro ⟨l₁, l₂, hEq, hpx, hall⟩
        cases l₁ with
        | nil =>
          cases hEq
          rw [hpa] at hpx
          cases hpx
        | cons b l₁' =>
          have hb : b = a := ((List.cons.injEq .. ▸ hEq).1 : a = b).symm
          have htl : rest = l₁' ++ x :: l₂ := (List.cons.injEq .. ▸ hEq).2
          exact ⟨l₁', l₂, htl, hpx,
            fun y hy => hall y (List.mem_cons_of_mem b hy)⟩

/-- C4: pass 2 emits one adjacency edge per `visit_pairs` invocation, each
unordered pair of distinct devices is visited exactly once (so exactly one
edge per pair, `N·(N-1)/2` edges in total), and each edge endpoint is the
first port in iteration order whose post-pruning visible set contains any
MAC of the other device — the device node itself when no port qualifies. -/
theorem map_pairwise_adjacency (orig : MultiMap Mac Device)
    (hn : (pruneDevices orig).records.Nodup) :
    mapEdges (pruneDevices orig) =
      (pruneDevices orig).visit_pairs.map (fun lr =>
        (resolveEndpoint lr.1 lr.2.mac, resolveEndpoint lr.2 lr.1.mac)) ∧
    (∀ a b : Device, a ∈ (pruneDevices orig).records →
        b ∈ (pruneDevices orig).records → a ≠ b →
      (pruneDevices orig).visit_pairs.countP (fun y => decide (y = (a, b))) +
        (pruneDevices orig).visit_pairs.countP (fun y => decide (y = (b, a))) = 1) ∧
    (mapEdges (pruneDevices orig)).length =
      (pruneDevices orig).records.length *
        ((pruneDevices orig).records.length - 1) / 2 ∧
    (∀ (d : Device) (om : List Mac) (pid : String),
      resolveEndpoint d om = Endpoint.port d.id pid ↔
        ∃ (p : Port) (l₁ l₂ : List (String × Port)),
          d.ports = l₁ ++ (pid, p) :: l₂ ∧ p.can_see om = true ∧
            ∀ q ∈ l₁, q.2.can_see om = false) ∧
    (∀ (d : Device) (om : List Mac),
      resolveEndpoint d om = Endpoint.device d.id ↔
        ∀ q ∈ d.ports, q.2.can_see om = false) := by
  refine ⟨rfl, ?_, ?_, ?_, ?_⟩
  · intro a b ha hb hab
    exact visitPairsAux_count_pair (List.nodup_reverse.mpr hn)
      (List.mem_reverse.mpr ha) (List.mem_reverse.mpr hb) hab
  · rw [mapEdges, List.length_map, MultiMap.visit_pairs, visitPairsAux_length,
      List.length_reverse, Nat.choose_two_right]
  · intro d om pid
    rw [resolveEndpoint]
    cases hf : d.ports.find? (fun ip => ip.2.can_see om) with
    | none =>
      simp only []
      constructor
      · intro h; cases h
      · rintro ⟨p, l₁, l₂, hEq, hsee, hall⟩
        rw [List.find?_eq_none] at hf
        have := hf (pid, p) (by rw [hEq]; exact List.mem_append_right _ (List.mem_cons_self _ _))
        simp only [hsee] at this
        exact absurd trivial this
    | some ip =>
      simp only []
      constructor
      · intro h
        have hid : ip.1 = pid := (Endpoint.port.injEq .. ▸ h).2
        subst hid
        rcases (find?_eq_some_first _ _ _).mp hf with ⟨l₁, l₂, hEq, hsee, hall⟩
        exact ⟨ip.2, l₁, l₂, by simpa using hEq, hsee, hall⟩
      · rintro ⟨p, l₁, l₂, hEq, hsee, hall⟩
        have : d.ports.find? (fun ip => ip.2.can_see om) = some (pid, p) :=
          (find?_eq_some_first _ _ _).mpr ⟨l₁, l₂, hEq, hsee, hall⟩
        rw [hf] at this
        cases this
        rfl
  · intro d om
    rw [resolveEndpoint]
    cases hf : d.ports.find? (fun ip => ip.2.can_see om) with
    | none =>
      simp only []
      rw [List.find?_eq_none] at hf
      constructor
      · intro _ q hq
        have := hf q hq
        cases h : q.2.can_see om
        · rfl
        · exact absurd h this
      · intro _
        trivial
    | some ip =>
      simp only []
      constructor
      · intro h; cases h
      · intro hall
        have hmem := List.mem_of_find?_eq_some hf
        have hp := List.find?_some hf
        rw [hall ip hmem] at hp
        cases hp

/-- Witness for C4 at a concrete input: on the pruned A–B–C chain the
pairwise pass emits exactly `3·2/2` edges. -/
theorem map_pairwise_adjacency_witness :
    (mapEdges (pruneDevices chainMap)).length =
      (pruneDevices chainMap).records.length *
        ((pruneDevices chainMap).records.length - 1) / 2 :=
  (map_pairwise_adjacency chainMap (by decide)).2.2.1

/-! ### Pass 3 of `Network::map` (aggregate unknown neighbors) -/

/-- The unknown-device count of pass 3 (`lib.rs` lines 251-255): how many of
the port's visible MACs do not resolve to any configured device in the
index. -/
def unknownCount (devs : MultiMap Mac Device) (p : Port) : Nat :=
  (p.visible.items.filter (fun m => !(devs.contains_key m))).length

/-- Inner loop of pass 3 (`lib.rs` lines 245-268) over one device's ports:
skip ports with an empty visible set, skip a zero unknown count, otherwise
emit one aggregate entry — the port it attaches to and the count labelling
the synthesized node (one fresh `"count devices"` node plus the single edge
joining it to the port node). -/
def aggPorts (devs : MultiMap Mac Device) (did : String) :
    List (String × Port) → List ((String × String) × Nat)
  | [] => []
  | pp :: rest =>
    if pp.2.visible.is_empty then aggPorts devs did rest
    else if unknownCount devs pp.2 = 0 then aggPorts devs did rest
    else ((did, pp.1), unknownCount devs pp.2) :: aggPorts devs did rest

/-- Outer loop of pass 3 over all devices. -/
def aggDevices (devs : MultiMap Mac Device) : List Device → List ((String × String) × Nat)
  | [] => []
  | d :: rest => aggPorts devs d.id d.ports ++ aggDevices devs rest

/-- Pass 3 of `Network::map`: the aggregate nodes (with their single edges)
synthesized from the pruned device table. -/
def aggregateEntries (devs : MultiMap Mac Device) : List ((String × String) × Nat) :=
  aggDevices devs devs.records

theorem mem_aggPorts {devs : MultiMap Mac Device} {did : String}
    {ports : List (String × Port)} {e : (String × String) × Nat}
    (h : e ∈ aggPorts devs did ports) :
    ∃ pp ∈ ports, e = ((did, pp.1), unknownCount devs pp.2) ∧
      pp.2.visible.is_empty = false ∧ ¬ unknownCount devs pp.2 = 0 := by
  induction ports with
  | nil => cases h
  | cons pp rest ih =>
    rw [aggPorts] at h
    by_cases hemp : pp.2.visible.is_empty = true
    · rw [if_pos hemp] at h
      rcases ih h with ⟨q, hq, he⟩
      exact ⟨q, List.mem_cons_of_mem pp hq, he⟩
    · rw [if_neg hemp] at h
      by_cases hz : unknownCount devs pp.2 = 0
      · rw [if_pos hz] at h
        rcases ih h with ⟨q, hq, he⟩
        exact ⟨q, List.mem_cons_of_mem pp hq, he⟩
      · rw [if_neg hz] at h
        rcases List.mem_cons.mp h with rfl | h'
        · exact ⟨pp, List.mem_cons_self pp rest, rfl,
            Bool.not_eq_true _ ▸ hemp, hz⟩
        · rcases ih h' with ⟨q, hq, he⟩
          exact ⟨q, List.mem_cons_of_mem pp hq, he⟩

theorem mem_aggDevices {devs : MultiMap Mac Device} {recs : List Device}
    {e : (String × String) × Nat} (h : e ∈ aggDevices devs recs) :
    ∃ r ∈ recs, e ∈ aggPorts devs r.id r.ports := by
  induction recs with
  | nil => cases h
  | cons r rest ih =>
    rw [aggDevices] at h
    rcases List.mem_append.mp h with h' | h'
    · exact ⟨r, List.mem_cons_self r rest, h'⟩
    · rcases ih h' with ⟨r', hr', he⟩
      exact ⟨r', List.mem_cons_of_mem r hr', he⟩

theorem aggPorts_countP_zero {devs : MultiMap Mac Device} {did did' : String}
    {pid : String} {ports : List (String × Port)}
    (h : did' ≠ did ∨ pid ∉ ports.map (fun q => q.1)) :
    (aggPorts devs did ports).countP (fun e => decide (e.1 = (did', pid))) = 0 := by
  rw [List.countP_eq_zero]
  intro e he
  simp only [decide_eq_true_eq]
  intro hEq
  rcases mem_aggPorts he with ⟨pp, hpp, rfl, -, -⟩
  rcases Prod.mk.injEq .. ▸ hEq with ⟨h1, h2⟩
  rcases h with hne | hnm
  · exact hne h1.symm
  · exact hnm (h2 ▸ List.mem_map_of_mem (fun q => q.1) hpp)

theorem aggPorts_countP {devs : MultiMap Mac Device} {did : String}
    {pid : String} {p : Port} {ports : List (String × Port)}
    (hmem : (pid, p) ∈ ports) (hnd : (ports.map (fun q => q.1)).Nodup) :
    (aggPorts devs did ports).countP (fun e => decide (e.1 = (did, pid))) =
      if p.visible.is_empty = false ∧ ¬ unknownCount devs p = 0 then 1 else 0 := by
  induction ports with
  | nil => cases hmem
  | cons pp rest ih =>
    have hnd' : (rest.map (fun q => q.1)).Nodup := (List.nodup_cons.mp hnd).2
    have hhead : pp.1 ∉ rest.map (fun q => q.1) := (List.nodup_cons.mp hnd).1
    rcases List.mem_cons.mp hmem with rfl | hmem'
    · have hh : pid ∉ rest.map (fun q => q.1) := by simpa using hhead
      have hrest : (aggPorts devs did rest).countP
          (fun e => decide (e.1 = (did, pid))) = 0 :=
        aggPorts_countP_zero (Or.inr hh)
      by_cases hemp : p.visible.is_empty = true
      · rw [show aggPorts devs did ((pid, p) :: rest) = aggPorts devs did rest from by
          rw [aggPorts]; simp [hemp], hrest]
        simp [hemp]
      · by_cases hz : unknownCount devs p = 0
        · rw [show aggPorts devs did ((pid, p) :: rest) = aggPorts devs did rest from by
            rw [aggPorts]; simp [hemp, hz], hrest]
          simp [hz]
        · rw [show aggPorts devs did ((pid, p) :: rest) =
              ((did, pid), unknownCount devs p) :: aggPorts devs did rest from by
            rw [aggPorts]; simp [hemp, hz], List.countP_cons, hrest]
          simp [Bool.not_eq_true _ ▸ hemp, hz]
    · have hne : pp.1 ≠ pid := by
        intro hEq
        exact hhead (hEq ▸ List.mem_map_of_mem (fun q => q.1) hmem')
      have hcount := ih hmem' hnd'
      rw [aggPorts]
      by_cases hemp : pp.2.visible.is_empty = true
      · rwa [if_pos hemp]
      · rw [if_neg hemp]
        by_cases hz : unknownCount devs pp.2 = 0
        · rwa [if_pos hz]
        · rw [if_neg hz, List.countP_cons, hcount]
          have : ¬ (((did, pp.1), unknownCount devs pp.2).1 = (did, pid)) := by
            intro hEq
            exact hne (Prod.mk.injEq .. ▸ hEq).2
          simp [this]

theorem aggDevices_countP_zero {devs : MultiMap Mac Device} {did pid : String}
    {recs : List Device} (h : did ∉ recs.map (fun r => r.id)) :
    (aggDevices devs recs).countP (fun e => decide (e.1 = (did, pid))) = 0 := by
  rw [List.countP_eq_zero]
  intro e he
  simp only [decide_eq_true_eq]
  intro hEq
  rcases mem_aggDevices he with ⟨r, hr, he'⟩
  rcases mem_aggPorts he' with ⟨pp, -, rfl, -, -⟩
  have : r.id = did := (Prod.mk.injEq .. ▸ hEq).1
  exact h (this ▸ List.mem_map_of_mem (fun x => x.id) hr)

theorem aggDevices_countP {devs : MultiMap Mac Device} {d : Device} {pid : String}
    {recs : List Device} (hd : d ∈ recs)
    (hids : (recs.map (fun r => r.id)).Nodup) :
    (aggDevices devs recs).countP (fun e => decide (e.1 = (d.id, pid))) =
      (aggPorts devs d.id d.ports).countP (fun e => decide (e.1 = (d.id, pid))) := by
  induction recs with
  | nil => cases hd
  | cons r rest ih =>
    have hhead : r.id ∉ rest.map (fun x => x.id) := (List.nodup_cons.mp hids).1
    have hrest : (rest.map (fun x => x.id)).Nodup := (List.nodup_cons.mp hids).2
    rw [aggDevices, List.countP_append]
    rcases List.mem_cons.mp hd with rfl | hd'
    · rw [aggDevices_countP_zero hhead]
      omega
    · have hne : r.id ≠ d.id := by
        intro hEq
        exact hhead (hEq ▸ List.mem_map_of_mem (fun x => x.id) hd')
      rw [aggPorts_countP_zero (Or.inl (Ne.symm hne)), ih hd' hrest]
      omega

theorem nodup_fst_mem_eq {A B : Type} {l : List (A × B)} {k : A} {b b' : B}
    (hnd : (l.map (fun q => q.1)).Nodup) (h : (k, b) ∈ l) (h' : (k, b') ∈ l) :
    b = b' := by
  induction l with
  | nil => cases h
  | cons q rest ih =>
    have hhead : q.1 ∉ rest.map (fun x => x.1) := (List.nodup_cons.mp hnd).1
    have hrest : (rest.map (fun x => x.1)).Nodup := (List.nodup_cons.mp hnd).2
    rcases List.mem_cons.mp h with rfl | hmem
    · rcases List.mem_cons.mp h' with hEq | hmem'
      · exact ((Prod.mk.injEq .. ▸ hEq).2 : b' = b).symm
      · exact absurd (List.mem_map_of_mem (fun x => x.1) hmem') (by simpa using hhead)
    · rcases List.mem_cons.mp h' with hEq | hmem'
      · cases hEq
        exact absurd (List.mem_map_of_mem (fun x => x.1) hmem) (by simpa using hhead)
      · exact ih hrest hmem hmem'

/-- C8: on the pruned device table, a port gets exactly one aggregate entry
(one synthesized node labeled with the unknown count, attached to the port
by a single edge) precisely when its visible set is non-empty and the count
of its visible MACs not resolving to any configured device is nonzero, and
every aggregate entry attached to the port carries exactly that count. -/
theorem map_aggregate_unknown_neighbors (orig : MultiMap Mac Device)
    (d : Device) (pid : String) (p : Port)
    (hd : d ∈ (pruneDevices orig).records)
    (hp : (pid, p) ∈ d.ports)
    (hids : (((pruneDevices orig).records).map (fun r => r.id)).Nodup)
    (hpids : (d.ports.map (fun q => q.1)).Nodup) :
    (aggregateEntries (pruneDevices orig)).countP
        (fun e => decide (e.1 = (d.id, pid))) =
      (if p.visible.is_empty = false ∧ ¬ unknownCount (pruneDevices orig) p = 0
       then 1 else 0) ∧
    (∀ e ∈ aggregateEntries (pruneDevices orig), e.1 = (d.id, pid) →
      e.2 = unknownCount (pruneDevices orig) p) := by
  constructor
  · rw [aggregateEntries, aggDevices_countP hd hids, aggPorts_countP hp hpids]
  · intro e he hkey
    rcases mem_aggDevices he with ⟨r, hr, he'⟩
    rcases mem_aggPorts he' with ⟨pp, hpp, rfl, -, -⟩
    rcases Prod.mk.injEq .. ▸ hkey with ⟨hid, hpid⟩
    have hrd : r = d := List.inj_on_of_nodup_map hids hr hd hid
    subst hrd
    subst hpid
    have hpp' : (pp.1, pp.2) ∈ r.ports := by simpa using hpp
    have : pp.2 = p := nodup_fst_mem_eq hpids hpp' hp
    rw [this]

/-- MAC of the single configured device in the aggregation example. -/
def aggUmac : Mac := [0, 0, 0, 0, 0, 9]

/-- The one port of the aggregation example: three visible MACs, none
belonging to any configured device. -/
def aggPortU : Port :=
  ⟨"p", ⟨[(([2, 0, 0, 0, 0, 1] : Mac), 10), (([2, 0, 0, 0, 0, 2] : Mac), 10),
    (([2, 0, 0, 0, 0, 3] : Mac), 10)]⟩⟩

/-- The single configured device of the aggregation example. -/
def aggU : Device := ⟨"U", none, [aggUmac], [("p", aggPortU)]⟩

/-- Device index of the aggregation example. -/
def aggMap : MultiMap Mac Device := MultiMap.empty.insert [aggUmac] aggU

/-- Witness for C8 at a concrete input: a device with one port seeing three
MACs of unconfigured devices yields exactly one aggregate entry for that
port (its count evaluates to 3). -/
theorem map_aggregate_unknown_neighbors_witness :
    (aggregateEntries (pruneDevices aggMap)).countP
        (fun e => decide (e.1 = (aggU.id, "p"))) =
      (if aggPortU.visible.is_empty = false ∧
          ¬ unknownCount (pruneDevices aggMap) aggPortU = 0
       then 1 else 0) :=
  (map_aggregate_unknown_neighbors aggMap aggU "p" aggPortU
    (by decide) (by decide) (by decide) (by decide)).1

/-! ### The parsers (`src/parsers.rs`)

Raw report text is modelled as its character sequence (`List Char`); the
inputs of interest are ASCII, where Rust's byte-based `len` and the
character count coincide.  `str::split(c)` — which yields every
(possibly empty) piece between occurrences of `c` — is modelled by
`splitOnChar`. -/

/-- A report text: the character sequence of the Rust `String`. -/
abbrev Text := List Char

/-- Model of Rust `str::split(sep)` for a one-character separator: splits at
every occurrence, keeping empty pieces. -/
def splitOnChar (sep : Char) : Text → List Text
  | [] => [[]]
  | c :: rest =>
    if c = sep then [] :: splitOnChar sep rest
    else
      match splitOnChar sep rest with
      | t :: ts => (c :: t) :: ts
      | [] => [[c]]

/-- Model of Rust `str::trim_end_matches(':')`: drop every trailing `':'`. -/
def trimEndColons (t : Text) : Text :=
  (t.reverse.dropWhile (fun c => c == ':')).reverse

/-- `src/error.rs`: the two error kinds. -/
inductive Error where
  | ioError (msg : String)
  | parseError (msg : String)
deriving DecidableEq, Repr

/-- Value of a hexadecimal digit character. -/
def hexVal (c : Char) : Option Nat :=
  if '0' ≤ c ∧ c ≤ '9' then some (c.toNat - '0'.toNat)
  else if 'a' ≤ c ∧ c ≤ 'f' then some (c.toNat - 'a'.toNat + 10)
  else if 'A' ≤ c ∧ c ≤ 'F' then some (c.toNat - 'A'.toNat + 10)
  else none

/-- One octet from two hexadecimal digit characters. -/
def hexByte (c₁ c₂ : Char) : Option Nat :=
  match hexVal c₁, hexVal c₂ with
  | some h, some l => some (h * 16 + l)
  | _, _ => none

/-- Whether a character is an accepted MAC-address separator. -/
def isSepChar (c : Char) : Bool := c == ':' || c == '-' || c == '.'

/-- Model of the external `eui48::MacAddress::from_str` for the 17-character
separated form `xx:xx:xx:xx:xx:xx` (the only shape the port parser feeds it
after its length-17 pre-check; the device parsers' claims do not depend on
its details beyond producing some MAC). -/
def macFromStr (t : Text) : Option Mac :=
  match t with
  | [a₁, a₂, s₁, b₁, b₂, s₂, c₁, c₂, s₃, d₁, d₂, s₄, e₁, e₂, s₅, f₁, f₂] =>
    if isSepChar s₁ && isSepChar s₂ && isSepChar s₃ && isSepChar s₄ &&
        isSepChar s₅ then
      match hexByte a₁ a₂, hexByte b₁ b₂, hexByte c₁ c₂, hexByte d₁ d₂,
          hexByte e₁ e₂, hexByte f₁ f₂ with
      | some a, some b, some c, some d, some e, some f => some [a, b, c, d, e, f]
      | _, _, _, _, _, _ => none
    else none
  | _ => none

/-- `parsers.rs` `is_valid_mac` (lines 15-17): universally-administered and
unicast. -/
def is_valid_mac (mac : Mac) : Bool := mac.is_universal && mac.is_unicast

/-- `parsers.rs` `parse_port_data` (lines 39-58, hostapd format): keep the
17-character lines whose third character is `':'`, parse each as a MAC and
insert it with expiry `now + 5` seconds.  No validity check is applied. -/
def parse_port_data (data : Text) (now : Nat) : Except Error (ExpireSet Mac) :=
  Except.ok ((splitOnChar (Char.ofNat 10) data).foldl (fun set line =>
    if line.length ≠ 17 then set
    else if line.get? 2 ≠ some ':' then set
    else
      match macFromStr line with
      | none => set
      | some mac => set.insert mac (now + 5)) ExpireSet.empty)

/-- The shared per-port insertion of `parse_device_data` (lines 123-129 and
156-162): extend the port's set when present, else start a new one. -/
def mapInsertMac (m : List (Text × ExpireSet Mac)) (port : Text) (mac : Mac)
    (expiry : Nat) : List (Text × ExpireSet Mac) :=
  match assocGet m port with
  | some s => assocPut m port (s.insert mac expiry)
  | none => assocPut m port (ExpireSet.empty.insert mac expiry)

/-- One line of the forwarding-database format (`parsers.rs` lines 101-130):
`<mac> dev <port> <flags…>`, skipping invalid MACs, missing `dev`, and the
`permanent`/`self` flags. -/
def parseFdbLine (m : List (Text × ExpireSet Mac)) (line : Text) (now : Nat) :
    List (Text × ExpireSet Mac) :=
  match splitOnChar ' ' line with
  | [] => m
  | addr :: rest =>
    match macFromStr addr with
    | none => m
    | some mac =>
      if !(is_valid_mac mac) then m
      else
        match rest with
        | ['d', 'e', 'v'] :: port :: flags =>
          if flags.any (fun f => decide (f = ['p', 'e', 'r', 'm', 'a', 'n', 'e', 'n', 't'])) ||
              flags.any (fun f => decide (f = ['s', 'e', 'l', 'f'])) then m
          else mapInsertMac m port mac (now + 5)
        | _ => m

/-- One line of the swconfig format (`parsers.rs` lines 133-163):
`Port <p>: MAC <mac> …`, with trailing colons trimmed from the port token
and invalid MACs skipped. -/
def parseSwcLine (m : List (Text × ExpireSet Mac)) (line : Text) (now : Nat) :
    List (Text × ExpireSet Mac) :=
  match splitOnChar ' ' line with
  | ['P', 'o', 'r', 't'] :: port :: ['M', 'A', 'C'] :: addr :: _ =>
    match macFromStr addr with
    | none => m
    | some mac =>
      if !(is_valid_mac mac) then m
      else mapInsertMac m (trimEndColons port) mac (now + 5)
  | _ => m

/-- `parsers.rs` `DeviceDataFormat`. -/
inductive DeviceDataFormat where
  | forwardDb
  | swConfig
deriving DecidableEq, Repr

/-- `parsers.rs` `parse_device_data` (lines 92-167): fold the per-format
line parser over the lines; parsing itself never fails. -/
def parse_device_data (data : Text) (format : DeviceDataFormat) (now : Nat) :
    Except Error (List (Text × ExpireSet Mac)) :=
  Except.ok
    (match format with
     | DeviceDataFormat.forwardDb =>
       (splitOnChar (Char.ofNat 10) data).foldl (fun m line => parseFdbLine m line now) []
     | DeviceDataFormat.swConfig =>
       (splitOnChar (Char.ofNat 10) data).foldl (fun m line => parseSwcLine m line now) [])

/-- Every MAC stored anywhere in the port map is valid. -/
def ValidMap (l : List (Text × ExpireSet Mac)) : Prop :=
  ∀ e ∈ l, ∀ m ∈ (e.2 : ExpireSet Mac).items, is_valid_mac m = true

theorem mem_map_fst_entRemove {T : Type} [DecidableEq T] {l : List (T × Nat)}
    {x m : T} (h : x ∈ (entRemove l m).map (·.1)) : x ∈ l.map (·.1) := by
  induction l with
  | nil => cases h
  | cons e rest ih =>
    by_cases he : e.1 = m
    · rw [entRemove, if_pos he] at h
      exact List.mem_cons_of_mem _ (ih h)
    · rw [entRemove, if_neg he] at h
      rcases List.mem_cons.mp h with rfl | h'
      · exact List.mem_cons_self _ _
      · exact List.mem_cons_of_mem _ (ih h')

theorem mem_items_insert {T : Type} [DecidableEq T] {s : ExpireSet T} {mac m : T}
    {e : Nat} (h : m ∈ (s.insert mac e).items) : m = mac ∨ m ∈ s.items := by
  rw [ExpireSet.insert, ExpireSet.items] at h
  rw [List.map_append] at h
  rcases List.mem_append.mp h with h' | h'
  · exact Or.inr (mem_map_fst_entRemove h')
  · rcases List.mem_singleton.mp h' with rfl
    exact Or.inl rfl

theorem mem_assocPut {K A : Type} [DecidableEq K] {l : List (K × A)} {k : K}
    {a : A} {e : K × A} (h : e ∈ assocPut l k a) : e ∈ l ∨ e = (k, a) := by
  induction l with
  | nil =>
    rcases List.mem_singleton.mp h with rfl
    exact Or.inr rfl
  | cons p rest ih =>
    by_cases hp : p.1 = k
    · rw [assocPut, if_pos hp] at h
      rcases List.mem_cons.mp h with rfl | h'
      · exact Or.inr rfl
      · exact Or.inl (List.mem_cons_of_mem p h')
    · rw [assocPut, if_neg hp] at h
      rcases List.mem_cons.mp h with rfl | h'
      · exact Or.inl (List.mem_cons_self _ _)
      · rcases ih h' with h'' | h''
        · exact Or.inl (List.mem_cons_of_mem p h'')
        · exact Or.inr h''

theorem assocGet_mem {K A : Type} [DecidableEq K] {l : List (K × A)} {k : K}
    {a : A} (h : assocGet l k = some a) : (k, a) ∈ l := by
  induction l with
  | nil => cases h
  | cons p rest ih =>
    by_cases hp : p.1 = k
    · rw [assocGet, if_pos hp] at h
      cases h
      rw [← hp]
      exact List.mem_cons_self _ _
    · rw [assocGet, if_neg hp] at h
      exact List.mem_cons_of_mem p (ih h)

theorem validMap_insert_set {s : ExpireSet Mac} {mac : Mac} {e : Nat}
    (hs : ∀ m ∈ s.items, is_valid_mac m = true) (hmac : is_valid_mac mac = true) :
    ∀ m ∈ (s.insert mac e).items, is_valid_mac m = true := by
  intro m hm
  rcases mem_items_insert hm with rfl | hm'
  · exact hmac
  · exact hs m hm'

theorem validMap_mapInsertMac {l : List (Text × ExpireSet Mac)} {port : Text}
    {mac : Mac} {e : Nat} (hl : ValidMap l) (hmac : is_valid_mac mac = true) :
    ValidMap (mapInsertMac l port mac e) := by
  intro entry hentry m hm
  rw [mapInsertMac] at hentry
  cases hget : assocGet l port with
  | some s =>
    rw [hget] at hentry
    rcases mem_assocPut hentry with h' | rfl
    · exact hl entry h' m hm
    · exact validMap_insert_set (hl (port, s) (assocGet_mem hget)) hmac m hm
  | none =>
    rw [hget] at hentry
    rcases mem_assocPut hentry with h' | rfl
    · exact hl entry h' m hm
    · refine validMap_insert_set ?_ hmac m hm
      intro m' hm'
      cases hm'

theorem validMap_parseFdbLine {l : List (Text × ExpireSet Mac)} {line : Text}
    {now : Nat} (hl : ValidMap l) : ValidMap (parseFdbLine l line now) := by
  rw [parseFdbLine]
  split
  · exact hl
  · split
    · exact hl
    · split
      · exact hl
      · split
        · split
          · exact hl
          · apply validMap_mapInsertMac hl
            simp_all
        · exact hl

theorem validMap_parseSwcLine {l : List (Text × ExpireSet Mac)} {line : Text}
    {now : Nat} (hl : ValidMap l) : ValidMap (parseSwcLine l line now) := by
  rw [parseSwcLine]
  split
  · split
    · exact hl
    · split
      · exact hl
      · apply validMap_mapInsertMac hl
        simp_all
  · exact hl

theorem validMap_foldl {step : List (Text × ExpireSet Mac) → Text → Nat →
    List (Text × ExpireSet Mac)}
    (hstep : ∀ l line now, ValidMap l → ValidMap (step l line now))
    (lines : List Text) (now : Nat) :
    ∀ l, ValidMap l → ValidMap (lines.foldl (fun m line => step m line now) l) := by
  induction lines with
  | nil => intro l hl; exact hl
  | cons line rest ih =>
    intro l hl
    exact ih (step l line now) (hstep l line now hl)

/-- C9 (amended): the device-scoped parsers (forwarding-database and
swconfig) reject non-universal or non-unicast MACs — every MAC in every
per-port set they return is valid. -/
theorem parse_device_data_only_valid_macs (data : Text) (format : DeviceDataFormat)
    (now : Nat) (l : List (Text × ExpireSet Mac))
    (hres : parse_device_data data format now = Except.ok l)
    (port : Text) (s : ExpireSet Mac) (hps : (port, s) ∈ l)
    (m : Mac) (hm : m ∈ s.items) : is_valid_mac m = true := by
  have hvalid : ValidMap l := by
    cases format with
    | forwardDb =>
      rw [parse_device_data] at hres
      cases hres
      exact validMap_foldl (fun l line now hl => validMap_parseFdbLine hl)
        (splitOnChar (Char.ofNat 10) data) now [] (by intro e he; cases he)
    | swConfig =>
      rw [parse_device_data] at hres
      cases hres
      exact validMap_foldl (fun l line now hl => validMap_parseSwcLine hl)
        (splitOnChar (Char.ofNat 10) data) now [] (by intro e he; cases he)
  exact hvalid (port, s) hps m hm

/-- Witness for the amended C9 at a concrete input: the forwarding-database
parser accepts the valid MAC of `"00:11:22:33:44:55 dev eth0"`, and that
stored MAC satisfies the validity predicate. -/
theorem parse_device_data_only_valid_macs_witness :
    is_valid_mac [0, 17, 34, 51, 68, 85] = true :=
  parse_device_data_only_valid_macs
    ("00:11:22:33:44:55 dev eth0".data) DeviceDataFormat.forwardDb 0
    [(['e', 't', 'h', '0'], ⟨[([0, 17, 34, 51, 68, 85], 5)]⟩)]
    rfl
    ['e', 't', 'h', '0'] ⟨[([0, 17, 34, 51, 68, 85], 5)]⟩ (by decide)
    [0, 17, 34, 51, 68, 85] (by decide)

/-- C9 counterexample: the port-scoped (hostapd) parser performs no validity
check — on input `"01:00:5e:00:00:01"` it returns a set containing that
multicast (non-unicast) address, which the validity predicate rejects. -/
theorem parse_port_data_accepts_multicast :
    parse_port_data ("01:00:5e:00:00:01".data) 0 =
      Except.ok ⟨[(([1, 0, 94, 0, 0, 1] : Mac), 5)]⟩ ∧
    is_valid_mac [1, 0, 94, 0, 0, 1] = false := by
  refine ⟨rfl, ?_⟩
  decide

/-! ### The poll cycle (`Network::poll`, `lib.rs` lines 128-156)

A collector's `poll(root)` reads and parses a file — I/O against an
external filesystem.  For a fixed root each collector therefore behaves as
the one `Result` it returns; a poller is modelled by that result.  Panics
(`unwrap` failures) are modelled by `Option`, with `none` for the panic.
The middle `Nat` of every result is instrumentation: the number of
collector invocations performed, used to state the early-abort property. -/

/-- `lib.rs` `PortConfig`: id, optional name, and the port-scoped pollers
(each modelled by the result its `poll` returns). -/
structure PortConfig where
  id : String
  name : Option String
  pollers : List (Except Error (ExpireSet Mac))

/-- `lib.rs` `DeviceConfig`: identity, MAC list, ports and device-scoped
pollers (each modelled by the result its `poll` returns). -/
structure DeviceConfig where
  id : String
  name : Option String
  mac : List Mac
  ports : List PortConfig
  pollers : List (Except Error (List (String × ExpireSet Mac)))

/-- `lib.rs` `Network`: the configuration and the device index. -/
structure Network where
  config : List DeviceConfig
  devices : MultiMap Mac Device

/-- The error component of a collector's result. -/
def exceptErr {α : Type} : Except Error α → Option Error
  | Except.ok _ => none
  | Except.error e => some e

/-- Inner loop of the port pass (`lib.rs` lines 139-142): run each
port-scoped poller, merging its set on success and aborting on the first
error (`?`). -/
def runPortPollers (p : Port) :
    List (Except Error (ExpireSet Mac)) → Port × Nat × Option Error
  | [] => (p, 0, none)
  | r :: rest =>
    match r with
    | Except.error e => (p, 1, some e)
    | Except.ok v =>
      match runPortPollers { p with visible := p.visible.extend_from v } rest with
      | (p', n, err) => (p', n + 1, err)

/-- One port of the poll cycle (`lib.rs` lines 136-142): sweep first, then
run the pollers. -/
def pollPort (p : Port) (pollers : List (Except Error (ExpireSet Mac)))
    (now : Nat) : Port × Nat × Option Error :=
  runPortPollers { p with visible := p.visible.expire now } pollers

/-- Port loop of the poll cycle (`lib.rs` lines 135-143):
`device.ports.get_mut(&port_config.id).unwrap()` — a missing port id is a
panic (`none`); mutation through the `&mut Port` is written back in place. -/
def pollPorts (dev : Device) (now : Nat) :
    List PortConfig → Option (Device × Nat × Option Error)
  | [] => some (dev, 0, none)
  | pc :: rest =>
    match assocGet dev.ports pc.id with
    | none => none
    | some port =>
      match pollPort port pc.pollers now with
      | (port', n, some e) =>
        some ({ dev with ports := assocPut dev.ports pc.id port' }, n, some e)
      | (port', n, none) =>
        match pollPorts { dev with ports := assocPut dev.ports pc.id port' } now rest with
        | none => none
        | some (dev', n', err) => some (dev', n + n', err)

/-- Merging one device-scoped poller's report (`lib.rs` lines 147-151):
entries whose port id matches a configured port are merged, the rest are
silently dropped. -/
def applyDeviceResult (dev : Device) : List (String × ExpireSet Mac) → Device
  | [] => dev
  | (pid, vis) :: rest =>
    match assocGet dev.ports pid with
    | none => applyDeviceResult dev rest
    | some port =>
      let port' := { port with visible := port.visible.extend_from vis }
      applyDeviceResult { dev with ports := assocPut dev.ports pid port' } rest

/-- Device-poller loop of the poll cycle (`lib.rs` lines 145-152): run each
device-scoped poller, aborting on the first error (`?`). -/
def runDevicePollers (dev : Device) :
    List (Except Error (List (String × ExpireSet Mac))) →
      Device × Nat × Option Error
  | [] => (dev, 0, none)
  | r :: rest =>
    match r with
    | Except.error e => (dev, 1, some e)
    | Except.ok vis =>
      match runDevicePollers (applyDeviceResult dev vis) rest with
      | (dev', n, err) => (dev', n + 1, err)

/-- Writing back through the `&mut V` that `MultiMap::get_mut` handed out:
replace the record stored at the given identity. -/
def MultiMap.setValue {K V : Type} (m : MultiMap K V) (idx : Nat) (v : V) :
    MultiMap K V :=
  { m with values := assocPut m.values idx v }

/-- One device of the poll cycle (`lib.rs` lines 129-152):
`self.devices.get_mut(device_config.mac.first().unwrap()).unwrap()` — an
empty MAC list or a failed lookup is a panic (`none`); then the port loop
and the device-poller loop, all mutations through the `&mut Device`
applied in place. -/
def pollDevice (st : MultiMap Mac Device) (dc : DeviceConfig) (now : Nat) :
    Option (MultiMap Mac Device × Nat × Option Error) :=
  match dc.mac.head? with
  | none => none
  | some m0 =>
    match assocGet st.indexes m0 with
    | none => none
    | some idx =>
      match assocGet st.values idx with
      | none => none
      | some dev =>
        match pollPorts dev now dc.ports with
        | none => none
        | some (dev', n, some e) => some (st.setValue idx dev', n, some e)
        | some (dev', n, none) =>
          match runDevicePollers dev' dc.pollers with
          | (dev'', n₂, err) => some (st.setValue idx dev'', n + n₂, err)

/-- The poll cycle over all configured devices (`lib.rs` lines 128-156). -/
def pollDevices (st : MultiMap Mac Device) :
    List DeviceConfig → Nat → Option (MultiMap Mac Device × Nat × Option Error)
  | [], _ => some (st, 0, none)
  | dc :: rest, now =>
    match pollDevice st dc now with
    | none => none
    | some (st', n, some e) => some (st', n, some e)
    | some (st', n, none) =>
      match pollDevices st' rest now with
      | none => none
      | some (st'', n', err) => some (st'', n + n', err)

/-- `Network::poll`: the final device table, the number of collectors
invoked, and the error aborting the cycle, if any (`none` models a panic). -/
def Network.poll (net : Network) (now : Nat) :
    Option (MultiMap Mac Device × Nat × Option Error) :=
  pollDevices net.devices net.config now

/-- The error components of one device's collectors in invocation order:
the port-scoped pollers port by port, then the device-scoped pollers. -/
def collectorErrs (dc : DeviceConfig) : List (Option Error) :=
  (dc.ports.map (fun pc => pc.pollers.map exceptErr)).flatten ++
    dc.pollers.map exceptErr

/-- The error components of every collector of the configuration, in
invocation order. -/
def allCollectorErrs (cfg : List DeviceConfig) : List (Option Error) :=
  (cfg.map collectorErrs).flatten

/-- The first failure in a collector-result sequence. -/
def firstErr : List (Option Error) → Option Error
  | [] => none
  | none :: rest => firstErr rest
  | some e :: _ => some e

/-- How many collectors a run-to-first-failure invocation order visits. -/
def errCount : List (Option Error) → Nat
  | [] => 0
  | none :: rest => 1 + errCount rest
  | some _ :: _ => 1

theorem firstErr_append (l₁ l₂ : List (Option Error)) :
    firstErr (l₁ ++ l₂) =
      match firstErr l₁ with
      | some e => some e
      | none => firstErr l₂ := by
  induction l₁ with
  | nil => rfl
  | cons x rest ih =>
    cases x with
    | none => simpa [firstErr] using ih
    | some e => simp [firstErr]

theorem errCount_append (l₁ l₂ : List (Option Error)) :
    errCount (l₁ ++ l₂) =
      if firstErr l₁ = none then errCount l₁ + errCount l₂ else errCount l₁ := by
  induction l₁ with
  | nil => simp [firstErr, errCount]
  | cons x rest ih =>
    cases x with
    | none =>
      have hstep : errCount ((none :: rest) ++ l₂) = 1 + errCount (rest ++ l₂) := rfl
      have hrhs : errCount (none :: rest) = 1 + errCount rest := rfl
      have hfe : firstErr (none :: rest) = firstErr rest := rfl
      rw [hstep, ih, hrhs, hfe]
      by_cases h : firstErr rest = none
      · simp only [if_pos h]
        omega
      · simp only [if_neg h]
    | some e =>
      have hstep : errCount ((some e :: rest) ++ l₂) = 1 := rfl
      have hrhs : errCount (some e :: rest) = 1 := rfl
      have hfe : firstErr (some e :: rest) = some e := rfl
      rw [hstep, hrhs, hfe]
      simp

theorem firstErr_eq_none_iff (l : List (Option Error)) :
    firstErr l = none ↔ ∀ x ∈ l, x = none := by
  induction l with
  | nil => simp [firstErr]
  | cons x rest ih =>
    cases x with
    | none => simp [firstErr, ih]
    | some e => simp [firstErr]

theorem runPortPollers_spec (pollers : List (Except Error (ExpireSet Mac))) :
    ∀ p : Port,
      (runPortPollers p pollers).2.2 = firstErr (pollers.map exceptErr) ∧
      (runPortPollers p pollers).2.1 = errCount (pollers.map exceptErr) := by
  induction pollers with
  | nil => intro p; exact ⟨rfl, rfl⟩
  | cons r rest ih =>
    intro p
    cases r with
    | error e => exact ⟨rfl, rfl⟩
    | ok v =>
      have h := ih { p with visible := p.visible.extend_from v }
      rcases hx : runPortPollers { p with visible := p.visible.extend_from v } rest
        with ⟨p', n, err⟩
      rw [hx] at h
      have h1 : err = firstErr (List.map exceptErr rest) := h.1
      have h2 : n = errCount (List.map exceptErr rest) := h.2
      simp only [runPortPollers, hx, List.map_cons, exceptErr, firstErr, errCount]
      exact ⟨h1, by omega⟩

theorem runDevicePollers_spec
    (pollers : List (Except Error (List (String × ExpireSet Mac)))) :
    ∀ dev : Device,
      (runDevicePollers dev pollers).2.2 = firstErr (pollers.map exceptErr) ∧
      (runDevicePollers dev pollers).2.1 = errCount (pollers.map exceptErr) := by
  induction pollers with
  | nil => intro dev; exact ⟨rfl, rfl⟩
  | cons r rest ih =>
    intro dev
    cases r with
    | error e => exact ⟨rfl, rfl⟩
    | ok vis =>
      have h := ih (applyDeviceResult dev vis)
      rcases hx : runDevicePollers (applyDeviceResult dev vis) rest with ⟨dev', n, err⟩
      rw [hx] at h
      have h1 : err = firstErr (List.map exceptErr rest) := h.1
      have h2 : n = errCount (List.map exceptErr rest) := h.2
      simp only [runDevicePollers, hx, List.map_cons, exceptErr, firstErr, errCount]
      exact ⟨h1, by omega⟩

theorem pollPorts_spec (pcs : List PortConfig) :
    ∀ (dev : Device) (now : Nat) (out : Device × Nat × Option Error),
      pollPorts dev now pcs = some out →
        out.2.2 = firstErr ((pcs.map (fun pc => pc.pollers.map exceptErr)).flatten) ∧
        out.2.1 = errCount ((pcs.map (fun pc => pc.pollers.map exceptErr)).flatten) := by
  induction pcs with
  | nil =>
    intro dev now out h
    cases h
    exact ⟨rfl, rfl⟩
  | cons pc rest ih =>
    intro dev now out h
    rw [pollPorts] at h
    cases hg : assocGet dev.ports pc.id with
    | none => rw [hg] at h; simp only at h; cases h
    | some port =>
      rw [hg] at h
      simp only at h
      rcases hpp : pollPort port pc.pollers now with ⟨port', n, errp⟩
      rw [hpp] at h
      have hspec := runPortPollers_spec pc.pollers
        { port with visible := port.visible.expire now }
      have hpp' : runPortPollers { port with visible := port.visible.expire now }
          pc.pollers = (port', n, errp) := hpp
      rw [hpp'] at hspec
      have hs1 : errp = firstErr (List.map exceptErr pc.pollers) := hspec.1
      have hs2 : n = errCount (List.map exceptErr pc.pollers) := hspec.2
      cases errp with
      | some e =>
        simp only at h
        cases h
        simp only [List.map_cons, List.flatten_cons]
        rw [firstErr_append, errCount_append, ← hs1, ← hs2]
        simp
      | none =>
        simp only at h
        cases hrec : pollPorts { dev with ports := assocPut dev.ports pc.id port' }
            now rest with
        | none => rw [hrec] at h; cases h
        | some out' =>
          rw [hrec] at h
          rcases out' with ⟨dev', n', err'⟩
          simp only at h
          cases h
          have hr := ih _ now _ hrec
          have hr1 : err' = firstErr
              ((rest.map (fun pc => pc.pollers.map exceptErr)).flatten) := hr.1
          have hr2 : n' = errCount
              ((rest.map (fun pc => pc.pollers.map exceptErr)).flatten) := hr.2
          simp only [List.map_cons, List.flatten_cons]
          rw [firstErr_append, errCount_append, ← hs1, ← hs2]
          simp only [if_pos rfl]
          constructor
          · exact hr1
          · show n + n' = n + errCount ((rest.map (fun pc => pc.pollers.map exceptErr)).flatten)
            omega

theorem pollDevice_spec (st : MultiMap Mac Device) (dc : DeviceConfig) (now : Nat)
    (out : MultiMap Mac Device × Nat × Option Error)
    (h : pollDevice st dc now = some out) :
    out.2.2 = firstErr (collectorErrs dc) ∧
    out.2.1 = errCount (collectorErrs dc) := by
  rw [pollDevice] at h
  cases hm : dc.mac.head? with
  | none => rw [hm] at h; simp only at h; cases h
  | some m0 =>
    rw [hm] at h
    simp only at h
    cases hi : assocGet st.indexes m0 with
    | none => rw [hi] at h; simp only at h; cases h
    | some idx =>
      rw [hi] at h
      simp only at h
      cases hv : assocGet st.values idx with
      | none => rw [hv] at h; simp only at h; cases h
      | some dev =>
        rw [hv] at h
        simp only at h
        cases hp : pollPorts dev now dc.ports with
        | none => rw [hp] at h; simp only at h; cases h
        | some outp =>
          rw [hp] at h
          rcases outp with ⟨dev', n, errp⟩
          have hps := pollPorts_spec dc.ports dev now _ hp
          have hp1 : errp =
              firstErr ((dc.ports.map (fun pc => pc.pollers.map exceptErr)).flatten) :=
            hps.1
          have hp2 : n =
              errCount ((dc.ports.map (fun pc => pc.pollers.map exceptErr)).flatten) :=
            hps.2
          cases errp with
          | some e =>
            simp only at h
            cases h
            rw [collectorErrs, firstErr_append, errCount_append, ← hp1, ← hp2]
            simp
          | none =>
            simp only at h
            rcases hd : runDevicePollers dev' dc.pollers with ⟨dev'', n₂, err₂⟩
            rw [hd] at h
            have hds := runDevicePollers_spec dc.pollers dev'
            rw [hd] at hds
            have hd1 : err₂ = firstErr (dc.pollers.map exceptErr) := hds.1
            have hd2 : n₂ = errCount (dc.pollers.map exceptErr) := hds.2
            simp only at h
            cases h
            rw [collectorErrs, firstErr_append, errCount_append, ← hp1, ← hp2]
            simp only [if_pos rfl]
            constructor
            · exact hd1
            · show n + n₂ = n + errCount (dc.pollers.map exceptErr)
              omega

theorem pollDevices_spec (cfg : List DeviceConfig) :
    ∀ (st : MultiMap Mac Device) (now : Nat)
      (out : MultiMap Mac Device × Nat × Option Error),
      pollDevices st cfg now = some out →
        out.2.2 = firstErr (allCollectorErrs cfg) ∧
        out.2.1 = errCount (allCollectorErrs cfg) := by
  induction cfg with
  | nil =>
    intro st now out h
    cases h
    exact ⟨rfl, rfl⟩
  | cons dc rest ih =>
    intro st now out h
    rw [pollDevices] at h
    cases hD : pollDevice st dc now with
    | none => rw [hD] at h; simp only at h; cases h
    | some outD =>
      rw [hD] at h
      rcases outD with ⟨st', n, errD⟩
      have hDs := pollDevice_spec st dc now _ hD
      have hD1 : errD = firstErr (collectorErrs dc) := hDs.1
      have hD2 : n = errCount (collectorErrs dc) := hDs.2
      cases errD with
      | some e =>
        simp only at h
        cases h
        simp only [allCollectorErrs, List.map_cons, List.flatten_cons]
        rw [firstErr_append, errCount_append, ← hD1, ← hD2]
        simp
      | none =>
        simp only at h
        cases hR : pollDevices st' rest now with
        | none => rw [hR] at h; simp only at h; cases h
        | some out' =>
          rw [hR] at h
          rcases out' with ⟨st'', n', err'⟩
          simp only at h
          cases h
          have hr := ih st' now _ hR
          have hr1 : err' = firstErr (allCollectorErrs rest) := hr.1
          have hr2 : n' = errCount (allCollectorErrs rest) := hr.2
          simp only [allCollectorErrs, List.map_cons, List.flatten_cons]
          rw [firstErr_append, errCount_append, ← hD1, ← hD2]
          simp only [if_pos rfl]
          constructor
          · rw [allCollectorErrs] at hr1
            exact hr1
          · show n + n' = n + errCount ((rest.map collectorErrs).flatten)
            rw [allCollectorErrs] at hr2
            omega

theorem pollDevices_truncate (cfgA : List DeviceConfig) :
    ∀ (st : MultiMap Mac Device) (dc : DeviceConfig) (cfgB : List DeviceConfig)
      (now : Nat) (e : Error),
      (∀ x ∈ allCollectorErrs cfgA, x = none) →
      firstErr (collectorErrs dc) = some e →
      pollDevices st (cfgA ++ dc :: cfgB) now = pollDevices st (cfgA ++ [dc]) now := by
  induction cfgA with
  | nil =>
    intro st dc cfgB now e _ hdc
    show pollDevices st (dc :: cfgB) now = pollDevices st [dc] now
    rw [pollDevices, pollDevices]
    cases hD : pollDevice st dc now with
    | none => rfl
    | some outD =>
      rcases outD with ⟨st', n, errD⟩
      have hDs := pollDevice_spec st dc now _ hD
      have he : errD = some e := by
        have h1 : errD = firstErr (collectorErrs dc) := hDs.1
        rw [h1, hdc]
      subst he
      rfl
  | cons dc0 cfgA' ih =>
    intro st dc cfgB now e hA hdc
    have hA0 : ∀ x ∈ collectorErrs dc0, x = none := by
      intro x hx
      exact hA x (by
        simp only [allCollectorErrs, List.map_cons, List.flatten_cons]
        exact List.mem_append_left _ hx)
    have hA' : ∀ x ∈ allCollectorErrs cfgA', x = none := by
      intro x hx
      exact hA x (by
        simp only [allCollectorErrs, List.map_cons, List.flatten_cons]
        exact List.mem_append_right _ hx)
    show pollDevices st (dc0 :: (cfgA' ++ dc :: cfgB)) now =
      pollDevices st (dc0 :: (cfgA' ++ [dc])) now
    rw [pollDevices, pollDevices]
    cases hD : pollDevice st dc0 now with
    | none => rfl
    | some outD =>
      rcases outD with ⟨st0, n0, err0⟩
      have hDs := pollDevice_spec st dc0 now _ hD
      have herr0 : err0 = none := by
        have h1 : err0 = firstErr (collectorErrs dc0) := hDs.1
        rw [h1]
        exact (firstErr_eq_none_iff _).mpr hA0
      subst herr0
      simp only [ih st0 dc cfgB now e hA' hdc]

/-- C7: provided no `unwrap` panics (the poll returns a result at all), the
poll cycle errors exactly when some collector fails — its error is the
first failing collector's, the number of collectors invoked counts exactly
through that first failure (none after it runs), and the cycle's outcome
equals that of the configuration truncated right after the failing
device — merges applied before the failure are kept, nothing later runs. -/
theorem poll_cycle_error_propagation :
    (∀ (net : Network) (now : Nat)
        (out : MultiMap Mac Device × Nat × Option Error),
      net.poll now = some out →
        out.2.2 = firstErr (allCollectorErrs net.config) ∧
        out.2.1 = errCount (allCollectorErrs net.config) ∧
        (out.2.2 = none ↔ ∀ x ∈ allCollectorErrs net.config, x = none)) ∧
    (∀ (st : MultiMap Mac Device) (cfgA : List DeviceConfig) (dc : DeviceConfig)
        (cfgB : List DeviceConfig) (now : Nat) (e : Error),
      (∀ x ∈ allCollectorErrs cfgA, x = none) →
      firstErr (collectorErrs dc) = some e →
      pollDevices st (cfgA ++ dc :: cfgB) now = pollDevices st (cfgA ++ [dc]) now) := by
  constructor
  · intro net now out h
    have hs := pollDevices_spec net.config net.devices now out h
    refine ⟨hs.1, hs.2, ?_⟩
    rw [hs.1]
    exact firstErr_eq_none_iff _
  · intro st cfgA dc cfgB now e hA hdc
    exact pollDevices_truncate cfgA st dc cfgB now e hA hdc

/-- MAC of the device used in the concrete poll-cycle examples. -/
def pollMacA : Mac := [0, 0, 0, 0, 0, 4]

/-- The device used in the concrete poll-cycle examples. -/
def pollDevA : Device := ⟨"da", none, [pollMacA], [("pa", ⟨"pa", ⟨[]⟩⟩)]⟩

/-- Device table of the concrete poll-cycle examples. -/
def pollStA : MultiMap Mac Device := MultiMap.empty.insert [pollMacA] pollDevA

/-- Configuration entry whose single port-scoped collector succeeds. -/
def pollCfgOk : DeviceConfig :=
  ⟨"da", none, [pollMacA], [⟨"pa", none, [Except.ok (⟨[]⟩ : ExpireSet Mac)]⟩], []⟩

/-- Configuration entry whose single port-scoped collector fails. -/
def pollCfgFail : DeviceConfig :=
  ⟨"da", none, [pollMacA],
    [⟨"pa", none, [Except.error (Error.ioError "boom")]⟩], []⟩

/-- Configuration entry for a device with an empty MAC list. -/
def pollCfgEmpty : DeviceConfig := ⟨"dx", none, [], [], []⟩

/-- Witness for C7 at a concrete input: with one succeeding collector before
a failing one, the cycle's outcome is unchanged by dropping everything after
the failing device, and the returned error is the first failure. -/
theorem poll_cycle_error_propagation_witness :
    pollDevices pollStA ([pollCfgOk] ++ pollCfgFail :: [pollCfgOk]) 0 =
      pollDevices pollStA ([pollCfgOk] ++ [pollCfgFail]) 0 ∧
    (pollStA, 2, some (Error.ioError "boom")).2.2 =
      firstErr (allCollectorErrs [pollCfgOk, pollCfgFail]) :=
  ⟨poll_cycle_error_propagation.2 pollStA [pollCfgOk] pollCfgFail [pollCfgOk] 0
      (Error.ioError "boom") (by decide) rfl,
   (poll_cycle_error_propagation.1 ⟨[pollCfgOk, pollCfgFail], pollStA⟩ 0
      (pollStA, 2, some (Error.ioError "boom")) rfl).1⟩

theorem pollDevices_append_ok (cfgA : List DeviceConfig) :
    ∀ (st stA : MultiMap Mac Device) (nA : Nat) (rest : List DeviceConfig) (now : Nat),
      pollDevices st cfgA now = some (stA, nA, none) →
      pollDevices st (cfgA ++ rest) now =
        match pollDevices stA rest now with
        | none => none
        | some (st', n', e') => some (st', nA + n', e') := by
  induction cfgA with
  | nil =>
    intro st stA nA rest now h
    cases h
    show pollDevices st rest now = _
    cases hr : pollDevices st rest now with
    | none => rfl
    | some out' =>
      rcases out' with ⟨st', n', e'⟩
      simp
  | cons dc cfgA' ih =>
    intro st stA nA rest now h
    rw [pollDevices] at h
    show pollDevices st (dc :: (cfgA' ++ rest)) now = _
    rw [pollDevices]
    cases hD : pollDevice st dc now with
    | none => rw [hD] at h; simp only at h; cases h
    | some outD =>
      rw [hD] at h
      rcases outD with ⟨st0, n0, err0⟩
      cases err0 with
      | some e => simp only at h; cases h
      | none =>
        simp only at h
        cases hR : pollDevices st0 cfgA' now with
        | none => rw [hR] at h; simp only at h; cases h
        | some outR =>
          rw [hR] at h
          rcases outR with ⟨st₁, n₁, e₁⟩
          simp only at h
          cases h
          have hstep := ih st0 stA n₁ rest now hR
          simp only [hstep]
          cases hr2 : pollDevices stA rest now with
          | none => rfl
          | some out2 =>
            rcases out2 with ⟨st₂, n₂, e₂⟩
            simp only
            rw [Nat.add_assoc]

theorem assocPut_isSome {K A : Type} [DecidableEq K] (l : List (K × A)) (k : K)
    (w v : A) (hget : assocGet l k = some v) :
    ∀ k', (assocGet (assocPut l k w) k').isSome = (assocGet l k').isSome := by
  intro k'
  by_cases hk : k' = k
  · subst hk
    rw [assocGet_assocPut_self, hget]
    rfl
  · rw [assocGet_assocPut_other _ _ _ _ (fun hEq => hk hEq.symm)]

theorem applyDeviceResult_keys (entries : List (String × ExpireSet Mac)) :
    ∀ (dev : Device) (k : String),
      (assocGet (applyDeviceResult dev entries).ports k).isSome =
        (assocGet dev.ports k).isSome := by
  induction entries with
  | nil => intro dev k; rfl
  | cons ev rest ih =>
    intro dev k
    rcases ev with ⟨pid, vis⟩
    cases hg : assocGet dev.ports pid with
    | none => simp only [applyDeviceResult, hg, ih]
    | some port =>
      simp only [applyDeviceResult, hg, ih]
      exact assocPut_isSome dev.ports pid _ port hg k

theorem runDevicePollers_keys
    (pollers : List (Except Error (List (String × ExpireSet Mac)))) :
    ∀ (dev : Device) (k : String),
      (assocGet (runDevicePollers dev pollers).1.ports k).isSome =
        (assocGet dev.ports k).isSome := by
  induction pollers with
  | nil => intro dev k; rfl
  | cons r rest ih =>
    intro dev k
    cases r with
    | error e => rfl
    | ok vis =>
      rcases hx : runDevicePollers (applyDeviceResult dev vis) rest with ⟨dev', n, err⟩
      have h1 := ih (applyDeviceResult dev vis) k
      rw [hx] at h1
      have h1' : (assocGet dev'.ports k).isSome =
          (assocGet (applyDeviceResult dev vis).ports k).isSome := h1
      simp only [runDevicePollers, hx]
      exact h1'.trans (applyDeviceResult_keys vis dev k)

theorem pollPorts_total_keys (pcs : List PortConfig) :
    ∀ (dev : Device) (now : Nat),
      (∀ pc ∈ pcs, (assocGet dev.ports pc.id).isSome = true) →
      ∃ dev' n err, pollPorts dev now pcs = some (dev', n, err) ∧
        ∀ k, (assocGet dev'.ports k).isSome = (assocGet dev.ports k).isSome := by
  induction pcs with
  | nil => intro dev now _; exact ⟨dev, 0, none, rfl, fun k => rfl⟩
  | cons pc rest ih =>
    intro dev now hWF
    have hhead := hWF pc (List.mem_cons_self _ _)
    rcases Option.isSome_iff_exists.mp hhead with ⟨port, hport⟩
    rcases hpp : pollPort port pc.pollers now with ⟨port', n, errp⟩
    cases errp with
    | some e =>
      refine ⟨{ dev with ports := assocPut dev.ports pc.id port' }, n, some e, ?_, ?_⟩
      · simp only [pollPorts, hport, hpp]
      · intro k
        exact assocPut_isSome dev.ports pc.id port' port hport k
    | none =>
      have hrest : ∀ pc' ∈ rest,
          (assocGet ({ dev with ports := assocPut dev.ports pc.id port' } :
            Device).ports pc'.id).isSome = true := by
        intro pc' hpc'
        show (assocGet (assocPut dev.ports pc.id port') pc'.id).isSome = true
        rw [assocPut_isSome dev.ports pc.id port' port hport]
        exact hWF pc' (List.mem_cons_of_mem _ hpc')
      rcases ih { dev with ports := assocPut dev.ports pc.id port' } now hrest
        with ⟨dev', n', err, heq, hkeys⟩
      refine ⟨dev', n + n', err, ?_, ?_⟩
      · simp only [pollPorts, hport, hpp, heq]
      · intro k
        rw [hkeys k]
        exact assocPut_isSome dev.ports pc.id port' port hport k

theorem pollDevice_total (st : MultiMap Mac Device) (dc : DeviceConfig) (now : Nat)
    (m0 : Mac) (ms : List Mac) (idx : Nat) (dev : Device)
    (hmac : dc.mac = m0 :: ms)
    (hidx : assocGet st.indexes m0 = some idx)
    (hdev : assocGet st.values idx = some dev)
    (hports : ∀ pc ∈ dc.ports, (assocGet dev.ports pc.id).isSome = true) :
    ∃ dev' n err, pollDevice st dc now = some (st.setValue idx dev', n, err) ∧
      ∀ k, (assocGet dev'.ports k).isSome = (assocGet dev.ports k).isSome := by
  rcases pollPorts_total_keys dc.ports dev now hports with ⟨dev₁, n₁, err₁, hpp, hkeys₁⟩
  have hhead : dc.mac.head? = some m0 := by rw [hmac]; rfl
  cases err₁ with
  | some e =>
    refine ⟨dev₁, n₁, some e, ?_, hkeys₁⟩
    simp only [pollDevice, hhead, hidx, hdev, hpp]
  | none =>
    rcases hrd : runDevicePollers dev₁ dc.pollers with ⟨dev₂, n₂, err₂⟩
    refine ⟨dev₂, n₁ + n₂, err₂, ?_, ?_⟩
    · simp only [pollDevice, hhead, hidx, hdev, hpp, hrd]
    · intro k
      rw [← hkeys₁ k]
      have h1 := runDevicePollers_keys dc.pollers dev₁ k
      rw [hrd] at h1
      exact h1

/-- The precondition making the poll cycle's `unwrap`s unreachable: every
configured device has at least one MAC, its first MAC resolves to a record,
and that record has every configured port id. -/
def PollWF (st : MultiMap Mac Device) (cfg : List DeviceConfig) : Prop :=
  ∀ dc ∈ cfg, ∃ m0 ms idx dev, dc.mac = m0 :: ms ∧
    assocGet st.indexes m0 = some idx ∧ assocGet st.values idx = some dev ∧
    ∀ pc ∈ dc.ports, (assocGet dev.ports pc.id).isSome = true

theorem assocGet_setValue {K V : Type} (m : MultiMap K V) (idx idx' : Nat) (v : V) :
    assocGet (m.setValue idx v).values idx' =
      if idx' = idx then some v else assocGet m.values idx' := by
  by_cases h : idx' = idx
  · subst h
    simp [MultiMap.setValue, assocGet_assocPut_self]
  · simp [MultiMap.setValue, assocGet_assocPut_other _ _ _ _ (fun hEq => h hEq.symm), h]

theorem pollWF_preserve (st : MultiMap Mac Device) (idx : Nat) (dev dev' : Device)
    (hdev : assocGet st.values idx = some dev)
    (hkeys : ∀ k, (assocGet dev'.ports k).isSome = (assocGet dev.ports k).isSome)
    (cfg : List DeviceConfig) (hWF : PollWF st cfg) :
    PollWF (st.setValue idx dev') cfg := by
  intro dc hdc
  rcases hWF dc hdc with ⟨m0, ms, idx₀, dev₀, hmac, hidx, hdev₀, hports⟩
  by_cases h : idx₀ = idx
  · subst h
    have hdd : dev₀ = dev := Option.some.inj (hdev₀.symm.trans hdev)
    refine ⟨m0, ms, idx₀, dev', hmac, hidx, ?_, ?_⟩
    · rw [assocGet_setValue]
      simp
    · intro pc hpc
      rw [hkeys pc.id, ← hdd]
      exact hports pc hpc
  · refine ⟨m0, ms, idx₀, dev₀, hmac, hidx, ?_, hports⟩
    rw [assocGet_setValue]
    simp [h, hdev₀]

theorem pollDevices_total (cfg : List DeviceConfig) :
    ∀ (st : MultiMap Mac Device) (now : Nat), PollWF st cfg →
      (pollDevices st cfg now).isSome = true := by
  induction cfg with
  | nil => intro st now _; rfl
  | cons dc rest ih =>
    intro st now hWF
    rcases hWF dc (List.mem_cons_self _ _) with
      ⟨m0, ms, idx, dev, hmac, hidx, hdev, hports⟩
    rcases pollDevice_total st dc now m0 ms idx dev hmac hidx hdev hports with
      ⟨dev', n, err, hpd, hkeys⟩
    cases err with
    | some e =>
      simp only [pollDevices, hpd]
      rfl
    | none =>
      have hWF' : PollWF (st.setValue idx dev') rest :=
        pollWF_preserve st idx dev dev' hdev hkeys rest
          (fun dc' hdc' => hWF dc' (List.mem_cons_of_mem _ hdc'))
      have hrest := ih (st.setValue idx dev') now hWF'
      rcases Option.isSome_iff_exists.mp hrest with ⟨out', hout'⟩
      rcases out' with ⟨st'', n', err'⟩
      simp only [pollDevices, hpd, hout']
      rfl

/-- C10 counterexample: a configuration containing a device with an empty
MAC list on which poll does NOT panic — the failing collector of an earlier
device aborts the cycle with an error before the empty-MAC device's
`unwrap` is reached. -/
theorem poll_empty_mac_counterexample :
    pollCfgEmpty.mac = [] ∧
    pollDevices pollStA [pollCfgFail, pollCfgEmpty] 0 =
      some (pollStA, 1, some (Error.ioError "boom")) :=
  ⟨rfl, rfl⟩

/-- C10 (amended): the poll cycle's `unwrap` on an empty MAC list panics
exactly when execution reaches that device — if every earlier device
processed without error, poll panics (`none`); and under the precondition
that every configured device has at least one MAC whose lookup resolves to
a record carrying all its configured port ids, the unwraps are unreachable
and poll is total, returning a state with `Ok` or a collector error. -/
theorem poll_unwrap_partiality :
    (∀ (st : MultiMap Mac Device) (cfgA : List DeviceConfig) (dcE : DeviceConfig)
        (cfgB : List DeviceConfig) (now : Nat) (stA : MultiMap Mac Device) (nA : Nat),
      dcE.mac = [] →
      pollDevices st cfgA now = some (stA, nA, none) →
      pollDevices st (cfgA ++ dcE :: cfgB) now = none) ∧
    (∀ (st : MultiMap Mac Device) (cfg : List DeviceConfig) (now : Nat),
      PollWF st cfg → (pollDevices st cfg now).isSome = true) := by
  constructor
  · intro st cfgA dcE cfgB now stA nA hmac hA
    have hE : pollDevice stA dcE now = none := by
      rw [pollDevice, hmac]
      rfl
    have h2 : pollDevices stA (dcE :: cfgB) now = none := by
      simp only [pollDevices, hE]
    rw [pollDevices_append_ok cfgA st stA nA (dcE :: cfgB) now hA, h2]
  · intro st cfg now hWF
    exact pollDevices_total cfg st now hWF

/-- Witness for the amended C10 at a concrete input: after one successfully
polled device, a following empty-MAC device makes the cycle panic; and the
well-formed single-device configuration polls totally. -/
theorem poll_unwrap_partiality_witness :
    pollDevices pollStA ([pollCfgOk] ++ pollCfgEmpty :: []) 0 = none ∧
    (pollDevices pollStA [pollCfgOk] 0).isSome = true :=
  ⟨poll_unwrap_partiality.1 pollStA [pollCfgOk] pollCfgEmpty [] 0 pollStA 1 rfl rfl,
   poll_unwrap_partiality.2 pollStA [pollCfgOk] 0 (by
    intro dc hdc
    rcases List.mem_singleton.mp hdc with rfl
    exact ⟨pollMacA, [], 0, pollDevA, rfl, rfl, rfl, by
      intro pc hpc
      rcases List.mem_singleton.mp hpc with rfl
      rfl⟩)⟩

/-- C1: the sweep is inverted in the code.  `ExpireSet::expire` keeps exactly
the entries whose expiry is strictly *before* `now` and removes the ones at
or after it: at sweep time `3`, the already-expired entry (expiry `1`)
survives and the still-live entry (expiry `5`) is removed. -/
theorem expire_keeps_expired_drops_live :
    (ExpireSet.expire
        (⟨[(([0, 0, 0, 0, 0, 1] : Mac), 1), (([0, 0, 0, 0, 0, 2] : Mac), 5)]⟩ :
          ExpireSet Mac) 3).inner =
      [(([0, 0, 0, 0, 0, 1] : Mac), 1)] := by
  decide

end Netmap
